import Mathlib

/-!
# noartem/ecdh: key agreement, marshaling, signing and sealed messages

A shallow embedding of `ecdh.go`, `secret.go` and `sign.go`.

* Go strings and byte slices are lists of bytes; `big.Int` values are `Int`.
* A call of the package either returns a value, returns an `error`, or aborts
  with a run-time panic; `Outcome` keeps the three apart.
* The random source `rand.Reader` is an explicit finite supply of bytes.
* The standard-library collaborators are not part of the repository.  The
  byte-level helpers of `math/big` and `crypto/elliptic` (`String`,
  `SetString`, `Bytes`, `SetBytes`, `FillBytes`, `Marshal`, `Unmarshal`) are
  written out after their documented behaviour.  The curve (`elliptic.Curve`
  is an interface), the block cipher, the AEAD construction and the signature
  primitive are parameters: a `Curve` value and a `Lib` value.
-/

namespace Ecdh

/-! ## Bytes and outcomes -/

/-- One byte of a Go string or slice. -/
abbrev Byte := Fin 256

/-- The contents of a Go `string` or `[]byte`. -/
abbrev ByteSeq := List Byte

/-- Error values: one constructor per `errors.New` / `fmt.Errorf` site of the
package (wrapping sites carry the wrapped error, `%s` sites carry the string),
plus `external` for an error value produced by a standard-library collaborator. -/
inductive Error where
  | external (code : Nat)
  | generateKey (cause : Error)
  | invalidPrivateKey
  | invalidPublicKey (publicKeyStr : ByteSeq)
  | generateSecretFailed
  | newSharedSecret (cause : Error)
  | newCipher (cause : Error)
  | newGCM (cause : Error)
  | readFull (cause : Error)
  | invalidNonceSize
  | decrypt (cause : Error)
  | generateRandomHash (cause : Error)
  | cannotSign (cause : Error)
  | cannotUnmarshalPublicKey (cause : Error)
  | invalidR (rStr : ByteSeq)
  | invalidS (sStr : ByteSeq)
  deriving DecidableEq

/-- The `io.EOF` error value. -/
def Error.EOF : Error := Error.external 0

/-- The `io.ErrUnexpectedEOF` error value. -/
def Error.ErrUnexpectedEOF : Error := Error.external 1

/-- What a call does: return a value, return an error, or abort (panic). -/
inductive Outcome (α : Type) where
  | ok (value : α)
  | error (err : Error)
  | panic
  deriving DecidableEq

/-- The slice expression `s[lo:hi]` on a string: aborts unless
`lo ≤ hi ≤ len(s)`. -/
def sliceStr (s : ByteSeq) (lo hi : Nat) : Outcome ByteSeq :=
  if lo ≤ hi ∧ hi ≤ s.length then Outcome.ok ((s.drop lo).take (hi - lo)) else Outcome.panic

/-! ## math/big -/

/-- Big-endian digits of `n` in base `b`, most significant first, none for
zero.  The first argument bounds the number of digits produced. -/
def digitsBE (b : Nat) : Nat → Nat → List Nat
  | 0, _ => []
  | fuel + 1, n => if n = 0 then [] else digitsBE b fuel (n / b) ++ [n % b]

/-- Value of a big-endian digit list in base `b`. -/
def ofDigitsBE (b : Nat) (ds : List Nat) : Nat :=
  ds.foldl (fun acc d => acc * b + d) 0

/-- The byte with the given value (reduced modulo 256). -/
def byteOfNat (n : Nat) : Byte := ⟨n % 256, Nat.mod_lt n (by decide)⟩

/-- The ASCII character of a decimal digit. -/
def digitChar (d : Nat) : Byte := byteOfNat (48 + d)

/-- ASCII minus sign. -/
def minusChar : Byte := 45

/-- ASCII plus sign. -/
def plusChar : Byte := 43

/-- Decimal text of a natural number ("0" for zero). -/
def natString (n : Nat) : ByteSeq :=
  if n = 0 then [digitChar 0] else (digitsBE 10 n n).map digitChar

/-- The method `(*big.Int).String`: base-10 text, with a leading minus sign for
a negative value. -/
def BigInt.String (x : Int) : ByteSeq :=
  if x < 0 then minusChar :: natString x.natAbs else natString x.natAbs

/-- Reads a run of decimal digits to the end of the input; fails at the first
byte that is not a digit. -/
def scanDigits : ByteSeq → Nat → Option Nat
  | [], acc => some acc
  | c :: rest, acc =>
    if 48 ≤ c.val ∧ c.val ≤ 57 then scanDigits rest (acc * 10 + (c.val - 48)) else none

/-- An unsigned decimal number: one or more digits and nothing else. -/
def scanNat (s : ByteSeq) : Option Nat :=
  match s with
  | [] => none
  | _ :: _ => scanDigits s 0

/-- The method `(*big.Int).SetString(s, 10)`: an optional sign, then one or more
decimal digits; the whole string must be consumed.  `none` is the `false`
result. -/
def BigInt.SetString (s : ByteSeq) : Option Int :=
  match s with
  | [] => none
  | c :: rest =>
    if c = minusChar then Option.map (fun n : Nat => -(n : Int)) (scanNat rest)
    else if c = plusChar then Option.map (fun n : Nat => (n : Int)) (scanNat rest)
    else Option.map (fun n : Nat => (n : Int)) (scanNat s)

/-- The method `(*big.Int).Bytes`: big-endian bytes of the absolute value,
without leading zeros. -/
def BigInt.Bytes (x : Int) : ByteSeq :=
  (digitsBE 256 x.natAbs x.natAbs).map byteOfNat

/-- The method `(*big.Int).SetBytes`: the big-endian unsigned value of a slice. -/
def BigInt.SetBytes (buf : ByteSeq) : Int :=
  ((ofDigitsBE 256 (buf.map Fin.val) : Nat) : Int)

/-- The method `(*big.Int).FillBytes` on a buffer of `n` bytes: the absolute
value, big-endian, zero-extended on the left; aborts when it does not fit. -/
def BigInt.FillBytes (x : Int) (n : Nat) : Outcome ByteSeq :=
  let b := BigInt.Bytes x
  if n < b.length then Outcome.panic else Outcome.ok (List.replicate (n - b.length) 0 ++ b)

/-! ## io and crypto/rand -/

/-- The function `io.ReadFull(r, buf)` with `len(buf) = n` on a source holding
the bytes `src`: the first `n` bytes, or an error when fewer are available. -/
def ReadFull (src : ByteSeq) (n : Nat) : Except Error ByteSeq :=
  if n ≤ src.length then Except.ok (src.take n)
  else if src = [] then Except.error Error.EOF
  else Except.error Error.ErrUnexpectedEOF

/-- The method `Reader.Read(buf)` with `buf` freshly zeroed of length `n`: the
buffer afterwards (a short read leaves the tail zero), or the error of an
exhausted source. -/
def Read (src : ByteSeq) (n : Nat) : Except Error ByteSeq :=
  if src = [] ∧ 0 < n then Except.error Error.EOF
  else Except.ok (src.take n ++ List.replicate (n - (src.take n).length) 0)

/-! ## crypto/elliptic, crypto/ecdsa, crypto/aes, crypto/cipher -/

/-- The struct `elliptic.CurveParams` (without the name). -/
structure CurveParams where
  P : Int
  N : Int
  B : Int
  Gx : Int
  Gy : Int
  BitSize : Nat

/-- The interface `elliptic.Curve`, with the methods this package and the
library helpers it calls reach.  A returned coordinate is a `*big.Int`, so it
may be `nil` (`none`). -/
structure Curve where
  Params : CurveParams
  IsOnCurve : Int → Int → Bool
  Add : Int → Int → Int → Int → Option Int × Option Int
  ScalarMult : Int → Int → ByteSeq → Option Int × Option Int
  ScalarBaseMult : ByteSeq → Option Int × Option Int

/-- The struct `ecdsa.PublicKey`. -/
structure ecdsa.PublicKey where
  Curve : Curve
  X : Int
  Y : Int

/-- The struct `ecdsa.PrivateKey`. -/
structure ecdsa.PrivateKey where
  PublicKey : ecdsa.PublicKey
  D : Int

/-- The interface `cipher.Block`. -/
structure Block where
  BlockSize : Nat
  Encrypt : ByteSeq → ByteSeq
  Decrypt : ByteSeq → ByteSeq

/-- The interface `cipher.AEAD`.  `Seal dst nonce plaintext additionalData`
and `Open dst nonce ciphertext additionalData`. -/
structure AEAD where
  NonceSize : Nat
  Overhead : Nat
  Seal : ByteSeq → ByteSeq → ByteSeq → ByteSeq → ByteSeq
  Open : ByteSeq → ByteSeq → ByteSeq → ByteSeq → Except Error ByteSeq

/-- The package-level functions of the standard library that the package
calls and that are not written out here: `ecdsa.GenerateKey`, `ecdsa.Sign`,
`ecdsa.Verify` (each random-consuming one takes the bytes of the source),
`aes.NewCipher` and `cipher.NewGCM`. -/
structure Lib where
  GenerateKey : Curve → ByteSeq → Except Error ecdsa.PrivateKey
  Sign : ByteSeq → ecdsa.PrivateKey → ByteSeq → Except Error (Int × Int)
  Verify : ecdsa.PublicKey → ByteSeq → Int → Int → Bool
  NewCipher : ByteSeq → Except Error Block
  NewGCM : Block → Except Error AEAD

/-- The byte width of a field element, `(BitSize + 7) / 8`. -/
def byteLen (curve : Curve) : Nat := (curve.Params.BitSize + 7) / 8

/-- The function `elliptic.Marshal`: tag byte 4, then X and Y, each filled into
`byteLen` bytes.  Aborts when a coordinate does not fit, and (as the library
does since Go 1.19) on a point other than `(0, 0)` that is not on the curve. -/
def elliptic.Marshal (curve : Curve) (x y : Int) : Outcome ByteSeq :=
  if ¬(x = 0 ∧ y = 0) ∧ curve.IsOnCurve x y = false then Outcome.panic
  else
    match BigInt.FillBytes x (byteLen curve), BigInt.FillBytes y (byteLen curve) with
    | Outcome.ok bx, Outcome.ok by_ => Outcome.ok ((4 : Byte) :: (bx ++ by_))
    | _, _ => Outcome.panic

/-- The function `elliptic.Unmarshal`: `none` is the `nil, nil` result. -/
def elliptic.Unmarshal (curve : Curve) (data : ByteSeq) : Option (Int × Int) :=
  if data.length ≠ 1 + 2 * byteLen curve then none
  else if data.head? ≠ some (4 : Byte) then none
  else
    let x := BigInt.SetBytes ((data.drop 1).take (byteLen curve))
    let y := BigInt.SetBytes (data.drop (1 + byteLen curve))
    if x ≥ curve.Params.P ∨ y ≥ curve.Params.P then none
    else if curve.IsOnCurve x y = false then none
    else some (x, y)

/-! ## ecdh.go -/

/-- The struct `KeyPair`. -/
structure KeyPair where
  curve : Curve
  privateKey : ecdsa.PrivateKey

/-- The struct `SharedSecret`. -/
structure SharedSecret where
  Secret : ByteSeq
  gcm : AEAD

/-- Method `PrivateKey` of `KeyPair`. -/
def KeyPair.PrivateKey (kp : KeyPair) : ecdsa.PrivateKey := kp.privateKey

/-- Method `PublicKey` of `KeyPair`. -/
def KeyPair.PublicKey (kp : KeyPair) : ecdsa.PublicKey := kp.privateKey.PublicKey

/-- Function `GenerateKeyCustomCurve`; `rand` is the content of `rand.Reader`. -/
def GenerateKeyCustomCurve (lib : Lib) (rand : ByteSeq) (curve : Curve) : Outcome KeyPair :=
  match lib.GenerateKey curve rand with
  | Except.error err => Outcome.error (Error.generateKey err)
  | Except.ok privateKey => Outcome.ok { curve := curve, privateKey := privateKey }

/-- Function `UnmarshalPublicCustomCurve`. -/
def UnmarshalPublicCustomCurve (curve : Curve) (publicKeyStr : ByteSeq) : Outcome ecdsa.PublicKey :=
  match elliptic.Unmarshal curve publicKeyStr with
  | none => Outcome.error (Error.invalidPublicKey publicKeyStr)
  | some (X, Y) => Outcome.ok { Curve := curve, X := X, Y := Y }

/-- Function `UnmarshalCustomCurve`. -/
def UnmarshalCustomCurve (curve : Curve) (privateKeyStr publicKeyStr : ByteSeq) :
    Outcome KeyPair :=
  match BigInt.SetString privateKeyStr with
  | none => Outcome.error Error.invalidPrivateKey
  | some D =>
    match UnmarshalPublicCustomCurve curve publicKeyStr with
    | Outcome.error err => Outcome.error err
    | Outcome.panic => Outcome.panic
    | Outcome.ok publicKey =>
      Outcome.ok { curve := curve, privateKey := { PublicKey := publicKey, D := D } }

/-- Method `Marshal` of `KeyPair`: the private and the public string. -/
def KeyPair.Marshal (kp : KeyPair) : Outcome (ByteSeq × ByteSeq) :=
  match elliptic.Marshal kp.curve kp.PublicKey.X kp.PublicKey.Y with
  | Outcome.ok publicKey => Outcome.ok (BigInt.String kp.privateKey.D, publicKey)
  | Outcome.error err => Outcome.error err
  | Outcome.panic => Outcome.panic

/-! ## secret.go -/

/-- Function `NewSharedSecret`. -/
def NewSharedSecret (lib : Lib) (secret : ByteSeq) : Outcome SharedSecret :=
  match lib.NewCipher secret with
  | Except.error err => Outcome.error (Error.newCipher err)
  | Except.ok cphr =>
    match lib.NewGCM cphr with
    | Except.error err => Outcome.error (Error.newGCM err)
    | Except.ok gcm => Outcome.ok { Secret := secret, gcm := gcm }

/-- Method `nonceSize` of `SharedSecret`. -/
def SharedSecret.nonceSize (secret : SharedSecret) : Nat := secret.gcm.NonceSize

/-- Method `seal` of `SharedSecret`: `gcm.Seal(nonce, nonce, message, nil)`. -/
def SharedSecret.seal (secret : SharedSecret) (nonce message : ByteSeq) : ByteSeq :=
  secret.gcm.Seal nonce nonce message []

/-- Method `open` of `SharedSecret`: `gcm.Open(nil, nonce, message, nil)`. -/
def SharedSecret.open (secret : SharedSecret) (nonce message : ByteSeq) :
    Except Error ByteSeq :=
  secret.gcm.Open [] nonce message []

/-- Method `Encrypt` of `SharedSecret`; `rand` is the content of `rand.Reader`. -/
def SharedSecret.Encrypt (secret : SharedSecret) (rand : ByteSeq) (message : ByteSeq) :
    Outcome ByteSeq :=
  match ReadFull rand secret.nonceSize with
  | Except.error err => Outcome.error (Error.readFull err)
  | Except.ok nonce => Outcome.ok (secret.seal nonce message)

/-- Method `Decrypt` of `SharedSecret`. -/
def SharedSecret.Decrypt (secret : SharedSecret) (encrypted : ByteSeq) : Outcome ByteSeq :=
  let nonceSize := secret.nonceSize
  if encrypted.length < nonceSize then Outcome.error Error.invalidNonceSize
  else
    match sliceStr encrypted 0 nonceSize, sliceStr encrypted nonceSize encrypted.length with
    | Outcome.ok nonce, Outcome.ok encryptedMessage =>
      match secret.open nonce encryptedMessage with
      | Except.error err => Outcome.error (Error.decrypt err)
      | Except.ok message => Outcome.ok message
    | _, _ => Outcome.panic

/-- Method `GenerateSecret` of `KeyPair` (in `ecdh.go`). -/
def KeyPair.GenerateSecret (lib : Lib) (kp : KeyPair) (anotherPublicKey : ecdsa.PublicKey) :
    Outcome SharedSecret :=
  match (kp.curve.ScalarMult anotherPublicKey.X anotherPublicKey.Y
      (BigInt.Bytes kp.privateKey.D)).1 with
  | none => Outcome.error Error.generateSecretFailed
  | some x =>
    match sliceStr (BigInt.String x) 0 32 with
    | Outcome.ok key =>
      match NewSharedSecret lib key with
      | Outcome.ok sharedSecret => Outcome.ok sharedSecret
      | Outcome.error err => Outcome.error (Error.newSharedSecret err)
      | Outcome.panic => Outcome.panic
    | _ => Outcome.panic

/-! ## sign.go -/

/-- Method `SignCustomCache` of `KeyPair`; `rand` is the content of
`rand.Reader`. -/
def KeyPair.SignCustomCache (lib : Lib) (kp : KeyPair) (rand : ByteSeq) (hash : ByteSeq) :
    Outcome (ByteSeq × ByteSeq) :=
  match lib.Sign rand kp.PrivateKey hash with
  | Except.error err => Outcome.error (Error.cannotSign err)
  | Except.ok (r, s) => Outcome.ok (BigInt.String r, BigInt.String s)

/-- Method `Sign` of `KeyPair`: a fresh 64-byte hash is read from the source,
then signed with what remains of it.  Returns `(R, S, hash)`. -/
def KeyPair.Sign (lib : Lib) (kp : KeyPair) (rand : ByteSeq) :
    Outcome (ByteSeq × ByteSeq × ByteSeq) :=
  match Read rand 64 with
  | Except.error err => Outcome.error (Error.generateRandomHash err)
  | Except.ok hash =>
    match kp.SignCustomCache lib (rand.drop 64) hash with
    | Outcome.ok (R, S) => Outcome.ok (R, S, hash)
    | Outcome.error err => Outcome.error err
    | Outcome.panic => Outcome.panic

/-- Method `VerifyCustomPublic` of `KeyPair`. -/
def KeyPair.VerifyCustomPublic (lib : Lib) (_kp : KeyPair) (rStr sStr hash : ByteSeq)
    (publicKey : ecdsa.PublicKey) : Outcome Bool :=
  match BigInt.SetString rStr with
  | none => Outcome.error (Error.invalidR rStr)
  | some R =>
    match BigInt.SetString sStr with
    | none => Outcome.error (Error.invalidS sStr)
    | some S => Outcome.ok (lib.Verify publicKey hash R S)

/-- Method `Verify` of `KeyPair`. -/
def KeyPair.Verify (lib : Lib) (kp : KeyPair) (R S hash publicKeyStr : ByteSeq) :
    Outcome Bool :=
  match UnmarshalPublicCustomCurve kp.curve publicKeyStr with
  | Outcome.error err => Outcome.error (Error.cannotUnmarshalPublicKey err)
  | Outcome.panic => Outcome.panic
  | Outcome.ok publicKey => kp.VerifyCustomPublic lib R S hash publicKey


/-! ## A curve given by its parameters

The affine arithmetic of the short Weierstrass curve `y² = x³ - 3x + b` over
the integers modulo `P`, as `elliptic.CurveParams` computes it on points of
the curve; `(0, 0)` stands for the point at infinity.  What the library does
on a point that is not on the curve (it is undefined, and newer versions
abort) is not represented: the functions below are total. -/

/-- Modular exponentiation by repeated squaring; the first argument after the
modulus bounds the number of rounds. -/
def powMod (m : Nat) : Nat → Nat → Nat → Nat
  | 0, _, _ => 1 % m
  | fuel + 1, b, e =>
    if e = 0 then 1 % m
    else if e % 2 = 1 then (b * powMod m fuel (b * b % m) (e / 2)) % m
    else powMod m fuel (b * b % m) (e / 2)

/-- The inverse of `z` modulo a prime `m`, as `z ^ (m - 2)`. -/
def modInverse (m z : Int) : Int :=
  (powMod m.toNat m.toNat (z % m).toNat (m.toNat - 2) : Nat)

/-- The inverse of `z` modulo the field prime `P`. -/
def CurveParams.inverse (cp : CurveParams) (z : Int) : Int := modInverse cp.P z

/-- Method `IsOnCurve` of `CurveParams`: both coordinates in `[0, P)` and
`y² = x³ - 3x + b` modulo `P`. -/
def CurveParams.IsOnCurve (cp : CurveParams) (x y : Int) : Bool :=
  if x < 0 ∨ cp.P ≤ x ∨ y < 0 ∨ cp.P ≤ y then false
  else decide ((x * x * x - 3 * x + cp.B) % cp.P = (y * y) % cp.P)

/-- Method `Double` of `CurveParams`. -/
def CurveParams.Double (cp : CurveParams) (x y : Int) : Int × Int :=
  if y % cp.P = 0 then (0, 0)
  else
    let l := (3 * x * x - 3) * cp.inverse (2 * y) % cp.P
    let x3 := (l * l - 2 * x) % cp.P
    (x3, (l * (x - x3) - y) % cp.P)

/-- Method `Add` of `CurveParams`. -/
def CurveParams.Add (cp : CurveParams) (x1 y1 x2 y2 : Int) : Int × Int :=
  if x1 = 0 ∧ y1 = 0 then (x2, y2)
  else if x2 = 0 ∧ y2 = 0 then (x1, y1)
  else if (x1 - x2) % cp.P = 0 then
    if (y1 + y2) % cp.P = 0 then (0, 0) else cp.Double x1 y1
  else
    let l := (y2 - y1) * cp.inverse (x2 - x1) % cp.P
    let x3 := (l * l - x1 - x2) % cp.P
    (x3, (l * (x1 - x3) - y1) % cp.P)

/-- The bits of a byte, most significant first. -/
def byteBits (b : Byte) : List Bool :=
  [7, 6, 5, 4, 3, 2, 1, 0].map (fun i => decide (b.val / 2 ^ i % 2 = 1))

/-- One round of the double-and-add loop of `ScalarMult`. -/
def CurveParams.scalarStep (cp : CurveParams) (Bx By : Int) (acc : Int × Int) (bit : Bool) :
    Int × Int :=
  let d := cp.Double acc.1 acc.2
  if bit then cp.Add Bx By d.1 d.2 else d

/-- Method `ScalarMult` of `CurveParams`: `k` is a big-endian scalar.  The
result of the loop is reduced modulo `P`, as the conversion back to affine
coordinates does. -/
def CurveParams.ScalarMult (cp : CurveParams) (Bx By : Int) (k : ByteSeq) : Int × Int :=
  let r := (k.flatMap byteBits).foldl (cp.scalarStep Bx By) (0, 0)
  (r.1 % cp.P, r.2 % cp.P)

/-- Method `ScalarBaseMult` of `CurveParams`. -/
def CurveParams.ScalarBaseMult (cp : CurveParams) (k : ByteSeq) : Int × Int :=
  cp.ScalarMult cp.Gx cp.Gy k

/-- The curve value that a `*CurveParams` is as an `elliptic.Curve`. -/
def CurveParams.toCurve (cp : CurveParams) : Curve where
  Params := cp
  IsOnCurve := cp.IsOnCurve
  Add := fun x1 y1 x2 y2 => (some (cp.Add x1 y1 x2 y2).1, some (cp.Add x1 y1 x2 y2).2)
  ScalarMult := fun Bx By k => (some (cp.ScalarMult Bx By k).1, some (cp.ScalarMult Bx By k).2)
  ScalarBaseMult := fun k => (some (cp.ScalarBaseMult k).1, some (cp.ScalarBaseMult k).2)

/-- The parameters of NIST P-256 (FIPS 186-3, section D.2.3). -/
def p256Params : CurveParams where
  P := 115792089210356248762697446949407573530086143415290314195533631308867097853951
  N := 115792089210356248762697446949407573529996955224135760342422259061068512044369
  B := 41058363725152142129326129780047268409114441015993725554835256314039467401291
  Gx := 48439561293906451759052585252797914202762949526041747995844080717082404635286
  Gy := 36134250956749795798585127919587881956611106672985015071877198253568414405109
  BitSize := 256

/-- The function `elliptic.P256`. -/
def P256 : Curve := p256Params.toCurve

/-- Function `GenerateKey` (in `ecdh.go`). -/
def GenerateKey (lib : Lib) (rand : ByteSeq) : Outcome KeyPair :=
  GenerateKeyCustomCurve lib rand P256

/-- Function `Unmarshal` (in `ecdh.go`). -/
def Unmarshal (privateKey publicKey : ByteSeq) : Outcome KeyPair :=
  UnmarshalCustomCurve P256 privateKey publicKey

/-- Function `UnmarshalPublic`. -/
def UnmarshalPublic (publicKeyStr : ByteSeq) : Outcome ecdsa.PublicKey :=
  UnmarshalPublicCustomCurve P256 publicKeyStr

/-! ## A model of the library

A block cipher, an AEAD and the ECDSA primitive, to have at hand a library
value that keeps the contracts stated below.  The cipher is a stand-in (only
the key-size rule of `aes.NewCipher` is that of AES) and the AEAD is a counter
mode stream with a 16-byte tag; ECDSA is the textbook scheme as
`crypto/ecdsa` computes it without its hardening of the nonce. -/

/-- Exclusive or of two bytes. -/
def xorByte (a b : Byte) : Byte := byteOfNat (a.val ^^^ b.val)

/-- Exclusive or of a message with a key stream, from stream position `i` on. -/
def xorFrom (ks : Nat → Byte) : Nat → ByteSeq → ByteSeq
  | _, [] => []
  | i, b :: rest => xorByte b (ks i) :: xorFrom ks (i + 1) rest

/-- The counter block: the nonce followed by a 32-bit big-endian counter. -/
def counterBlock (nonce : ByteSeq) (i : Nat) : ByteSeq :=
  nonce ++ [byteOfNat (i / 2 ^ 24), byteOfNat (i / 2 ^ 16), byteOfNat (i / 2 ^ 8), byteOfNat i]

/-- The stand-in block cipher under `key`. -/
def modelBlock (key : ByteSeq) : Block where
  BlockSize := 16
  Encrypt := fun src => xorFrom (fun i => byteOfNat ((key.getD (i % key.length) 0).val + 7 * i)) 0 src
  Decrypt := fun src => xorFrom (fun i => byteOfNat ((key.getD (i % key.length) 0).val + 7 * i)) 0 src

/-- Key stream byte `i` of the counter mode under `nonce`. -/
def keyStream (blk : Block) (nonce : ByteSeq) (i : Nat) : Byte :=
  (blk.Encrypt (counterBlock nonce (i / 16 + 2))).getD (i % 16) 0

/-- A polynomial checksum of the data, as 16 big-endian bytes. -/
def checksum (data : ByteSeq) : ByteSeq :=
  (List.range 16).map (fun i =>
    byteOfNat (data.foldl (fun acc b => (acc * 257 + b.val + 1) % 2 ^ 128) 0 / 256 ^ (15 - i)))

/-- The 16-byte tag over the additional data and the ciphertext. -/
def modelTag (blk : Block) (nonce ciphertext ad : ByteSeq) : ByteSeq :=
  xorFrom (fun i => (blk.Encrypt (counterBlock nonce 1)).getD i 0) 0 (checksum (ad ++ ciphertext))

/-- The error value `cipher: message authentication failed`. -/
def Error.errOpen : Error := Error.external 2

/-- The error value `crypto/aes: invalid key size`. -/
def Error.KeySizeError : Error := Error.external 3

/-- The error value of `cipher.NewGCM` on a block size other than 16. -/
def Error.errBlockSize : Error := Error.external 4

/-- A signing attempt that would have to draw a new nonce. -/
def Error.errRetry : Error := Error.external 5

/-- The AEAD over a block cipher: 12-byte nonce, 16-byte tag. -/
def modelGCM (blk : Block) : AEAD where
  NonceSize := 12
  Overhead := 16
  Seal := fun dst nonce plaintext ad =>
    dst ++ (xorFrom (keyStream blk nonce) 0 plaintext
      ++ modelTag blk nonce (xorFrom (keyStream blk nonce) 0 plaintext) ad)
  Open := fun dst nonce ciphertext ad =>
    if ciphertext.length < 16 then Except.error Error.errOpen
    else if ciphertext.drop (ciphertext.length - 16)
        = modelTag blk nonce (ciphertext.take (ciphertext.length - 16)) ad then
      Except.ok (dst ++ xorFrom (keyStream blk nonce) 0 (ciphertext.take (ciphertext.length - 16)))
    else Except.error Error.errOpen

/-- The number of bits of a natural number (`BitLen`). -/
def bitLen (n : Nat) : Nat := (digitsBE 2 n n).length

/-- The function `hashToInt` of `crypto/ecdsa`: the leftmost bits of the hash,
as many as the order has. -/
def hashToInt (hash : ByteSeq) (c : Curve) : Int :=
  let orderBits := bitLen c.Params.N.natAbs
  let orderBytes := (orderBits + 7) / 8
  let h := if orderBytes < hash.length then hash.take orderBytes else hash
  let ret := BigInt.SetBytes h
  if orderBits < h.length * 8 then ret / 2 ^ (h.length * 8 - orderBits) else ret

/-- A scalar in `[1, N-1]` from the random source, as `randFieldElement`
draws it: `BitSize / 8 + 8` bytes reduced modulo `N - 1`, plus one. -/
def randFieldElement (c : Curve) (rand : ByteSeq) : Except Error Int :=
  match ReadFull rand (c.Params.BitSize / 8 + 8) with
  | Except.error err => Except.error err
  | Except.ok b => Except.ok (BigInt.SetBytes b % (c.Params.N - 1) + 1)

/-- The function `ecdsa.GenerateKey`. -/
def modelGenerateKey (c : Curve) (rand : ByteSeq) : Except Error ecdsa.PrivateKey :=
  match randFieldElement c rand with
  | Except.error err => Except.error err
  | Except.ok k =>
    match c.ScalarBaseMult (BigInt.Bytes k) with
    | (some x, some y) => Except.ok { PublicKey := { Curve := c, X := x, Y := y }, D := k }
    | _ => Except.error (Error.external 6)

/-- The function `ecdsa.Sign`, one round: a zero `r` or `s`, after which the
library draws again, is reported as an error. -/
def modelSign (rand : ByteSeq) (priv : ecdsa.PrivateKey) (hash : ByteSeq) :
    Except Error (Int × Int) :=
  let c := priv.PublicKey.Curve
  let N := c.Params.N
  match randFieldElement c rand with
  | Except.error err => Except.error err
  | Except.ok k =>
    match (c.ScalarBaseMult (BigInt.Bytes k)).1 with
    | none => Except.error (Error.external 6)
    | some x =>
      let r := x % N
      let s := (priv.D * r + hashToInt hash c) * modInverse N k % N
      if r = 0 ∨ s = 0 then Except.error Error.errRetry else Except.ok (r, s)

/-- The function `ecdsa.Verify`. -/
def modelVerify (pub : ecdsa.PublicKey) (hash : ByteSeq) (r s : Int) : Bool :=
  let c := pub.Curve
  let N := c.Params.N
  if r ≤ 0 ∨ s ≤ 0 then false
  else if N ≤ r ∨ N ≤ s then false
  else
    let w := modInverse N s
    let u1 := hashToInt hash c * w % N
    let u2 := r * w % N
    match c.ScalarBaseMult (BigInt.Bytes u1), c.ScalarMult pub.X pub.Y (BigInt.Bytes u2) with
    | (some x1, some y1), (some x2, some y2) =>
      match c.Add x1 y1 x2 y2 with
      | (some x, some y) => if x = 0 ∧ y = 0 then false else decide (x % N = r)
      | _ => false
    | _, _ => false

/-- The model of the library. -/
def modelLib : Lib where
  GenerateKey := modelGenerateKey
  Sign := modelSign
  Verify := modelVerify
  NewCipher := fun key =>
    if key.length = 16 ∨ key.length = 24 ∨ key.length = 32 then Except.ok (modelBlock key)
    else Except.error Error.KeySizeError
  NewGCM := fun cphr =>
    if cphr.BlockSize = 16 then Except.ok (modelGCM cphr) else Except.error Error.errBlockSize

/-! ## Contracts of the collaborators and shapes of key pairs -/

/-- The contract of `cipher.AEAD`: `Seal` appends its output to `dst`, and
`Open` with the nonce that sealed returns the plaintext. -/
structure AEAD.Lawful (g : AEAD) : Prop where
  seal_append : ∀ dst nonce plaintext ad,
    g.Seal dst nonce plaintext ad = dst ++ g.Seal [] nonce plaintext ad
  open_seal : ∀ nonce plaintext ad, nonce.length = g.NonceSize →
    g.Open [] nonce (g.Seal [] nonce plaintext ad) ad = Except.ok plaintext

/-- Every AEAD that the library builds from a key keeps the AEAD contract. -/
def Lib.AEADLawful (lib : Lib) : Prop :=
  ∀ key cphr gcm, lib.NewCipher key = Except.ok cphr → lib.NewGCM cphr = Except.ok gcm →
    gcm.Lawful

/-- Points of the curve have coordinates in `[0, P)`, and a field element
fits in `byteLen` bytes. -/
def Curve.WellFormed (c : Curve) : Prop :=
  (∀ x y, c.IsOnCurve x y = true →
    0 ≤ x ∧ x < c.Params.P ∧ 0 ≤ y ∧ y < c.Params.P) ∧
  c.Params.P ≤ 256 ^ byteLen c

/-- A coordinate returned by `ScalarMult` is a field element in canonical
form: it is not negative. -/
def Curve.CanonicalCoordinates (c : Curve) : Prop :=
  ∀ (Bx By : Int) (k : ByteSeq) (x : Int), (c.ScalarMult Bx By k).1 = some x → 0 ≤ x

/-- Scalar multiplication is that of a commutative group: `a·(b·G)` and
`b·(a·G)` have the same x-coordinate. -/
def Curve.ScalarMultCommutes (c : Curve) : Prop :=
  ∀ (a b : ByteSeq) (xa ya xb yb : Int),
    c.ScalarBaseMult a = (some xa, some ya) → c.ScalarBaseMult b = (some xb, some yb) →
    (c.ScalarMult xb yb a).1 = (c.ScalarMult xa ya b).1

/-- A key pair on curve `c` whose public point is its private scalar times the
base point. -/
def KeyPair.DerivedOn (kp : KeyPair) (c : Curve) : Prop :=
  kp.curve = c ∧ kp.privateKey.PublicKey.Curve = c ∧
  c.ScalarBaseMult (BigInt.Bytes kp.privateKey.D)
    = (some kp.privateKey.PublicKey.X, some kp.privateKey.PublicKey.Y)

/-- A key pair as `GenerateKeyCustomCurve c` makes it: private scalar in
`[1, N-1]`, public point that scalar times the base point, on the curve. -/
def KeyPair.Generated (kp : KeyPair) (c : Curve) : Prop :=
  kp.DerivedOn c ∧ 1 ≤ kp.privateKey.D ∧ kp.privateKey.D < c.Params.N ∧
  c.IsOnCurve kp.privateKey.PublicKey.X kp.privateKey.PublicKey.Y = true

/-- The contract of `ecdsa.Sign` and `ecdsa.Verify` on curve `c`: a signature
made with a generated private key verifies under its public key. -/
def Lib.SignatureCorrect (lib : Lib) (c : Curve) : Prop :=
  ∀ (rand : ByteSeq) (priv : ecdsa.PrivateKey) (hash : ByteSeq) (r s : Int),
    priv.PublicKey.Curve = c → 1 ≤ priv.D → priv.D < c.Params.N →
    c.ScalarBaseMult (BigInt.Bytes priv.D) = (some priv.PublicKey.X, some priv.PublicKey.Y) →
    lib.Sign rand priv hash = Except.ok (r, s) →
    lib.Verify priv.PublicKey hash r s = true


/-! ## The group of points behind the curve arithmetic -/

/-- The Weierstrass curve `y² = x³ - 3x + B` over the integers modulo `p`. -/
def CurveParams.weierstrass (cp : CurveParams) (p : Nat) : WeierstrassCurve (ZMod p) :=
  ⟨0, 0, 0, -3, (cp.B : ZMod p)⟩

/-- An integer pair stands for a point of the curve group: `(0, 0)` for the
point at infinity, canonical coordinates for an affine point. -/
def CurveParams.Represents (cp : CurveParams) (p : Nat) (pt : Int × Int) :
    (cp.weierstrass p).toAffine.Point → Prop
  | WeierstrassCurve.Affine.Point.zero => pt = (0, 0)
  | @WeierstrassCurve.Affine.Point.some _ _ _ x y _ =>
    0 ≤ pt.1 ∧ pt.1 < cp.P ∧ 0 ≤ pt.2 ∧ pt.2 < cp.P ∧ (pt.1 : ZMod p) = x ∧ (pt.2 : ZMod p) = y

/-- The number a list of bits spells, most significant first, continuing
from `acc`. -/
def bitsValue (acc : Nat) (bits : List Bool) : Nat :=
  bits.foldl (fun n b => 2 * n + (if b then 1 else 0)) acc

/-- The parameters describe an elliptic curve over a prime field other than
the field of two elements: `P` is prime, the curve is not singular, `(0, 0)`
is not on it, and the base point is. -/
def CurveParams.Valid (cp : CurveParams) : Prop :=
  Nat.Prime cp.P.toNat ∧ cp.P ≠ 2 ∧ cp.B % cp.P ≠ 0 ∧
  (1728 - 432 * cp.B * cp.B) % cp.P ≠ 0 ∧ cp.IsOnCurve cp.Gx cp.Gy = true

/-! ## Concrete values used in the evaluations -/

/-- A point of P-256 whose x-coordinate is 5. -/
def shortPoint : ecdsa.PublicKey where
  Curve := P256
  X := 5
  Y := 31468013646237722594854082025316614106172411895747863909393730389177298123724

/-- The point `(0, 0)`, by which `crypto/elliptic` writes the point at
infinity. -/
def infinityPoint : ecdsa.PublicKey where
  Curve := P256
  X := 0
  Y := 0

/-- The P-256 key pair with private scalar 1, whose public point is the base
point. -/
def unitKey : KeyPair where
  curve := P256
  privateKey :=
    { PublicKey := { Curve := P256, X := p256Params.Gx, Y := p256Params.Gy }, D := 1 }

/-- A 32-byte key: the digit `1`, 32 times. -/
def sampleKey : ByteSeq := List.replicate 32 49

/-- The shared secret that the model library builds from `sampleKey`. -/
def sampleSecret : SharedSecret where
  Secret := sampleKey
  gcm := modelGCM (modelBlock sampleKey)

/-- The P-256 key pair with private scalar 2. -/
def aliceKey : KeyPair where
  curve := P256
  privateKey :=
    { PublicKey :=
        { Curve := P256
          X := 56515219790691171413109057904011688695424810155802929973526481321309856242040
          Y := 3377031843712258259223711451491452598088675519751548567112458094635497583569 }
      D := 2 }

/-- The P-256 key pair with private scalar 3. -/
def bobKey : KeyPair where
  curve := P256
  privateKey :=
    { PublicKey :=
        { Curve := P256
          X := 42877656971275811310262564894490210024759287182177196162425349131675946712428
          Y := 61154801112014214504178281461992570017247172004704277041681093927569603776562 }
      D := 3 }

/-- The text `79653159259317329199152975905021`: the first 32 decimal digits of
the x-coordinate of six times the base point of P-256. -/
def aliceBobKey : ByteSeq :=
  [55, 57, 54, 53, 51, 49, 53, 57, 50, 53, 57, 51, 49, 55, 51, 50,
   57, 49, 57, 57, 49, 53, 50, 57, 55, 53, 57, 48, 53, 48, 50, 49]

/-- The shared secret of `aliceKey` and `bobKey` under the model library. -/
def aliceBobSecret : SharedSecret where
  Secret := aliceBobKey
  gcm := modelGCM (modelBlock aliceBobKey)

/-- A 64-byte hash: the byte 1, 64 times. -/
def sampleHash : ByteSeq := List.replicate 64 1

/-- Content of the random source for one call of `Sign`: the 64 bytes of the
hash, then 40 bytes from which the nonce 2 is drawn. -/
def sampleRand : ByteSeq := sampleHash ++ (List.replicate 39 0 ++ [1])

/-- The R string of the signature of `sampleHash` by `aliceKey` with nonce 2. -/
def sampleR : ByteSeq :=
  BigInt.String 56515219790691171413109057904011688695424810155802929973526481321309856242040

/-- The S string of the signature of `sampleHash` by `aliceKey` with nonce 2. -/
def sampleS : ByteSeq :=
  BigInt.String 114638307708099327550190273506183490966017934796626968113442429644016490949793

/-! ## Lemmas on the big-integer helpers -/

theorem ofDigitsBE_append (b : Nat) (l : List Nat) (d : Nat) :
    ofDigitsBE b (l ++ [d]) = ofDigitsBE b l * b + d := by
  simp [ofDigitsBE, List.foldl_append]

theorem ofDigitsBE_digitsBE (b : Nat) (hb : 2 ≤ b) :
    ∀ (fuel n : Nat), n ≤ fuel → ofDigitsBE b (digitsBE b fuel n) = n := by
  intro fuel
  induction fuel with
  | zero => intro n hn; have : n = 0 := by omega
            subst this; rfl
  | succ f ih =>
    intro n hn
    by_cases h0 : n = 0
    · subst h0; simp [digitsBE, ofDigitsBE]
    · have hlt : n / b < n := Nat.div_lt_self (by omega) (by omega)
      simp only [digitsBE, h0, if_false, ofDigitsBE_append]
      rw [ih (n / b) (by omega)]
      exact Nat.div_add_mod' n b

theorem digitsBE_lt (b : Nat) (hb : 0 < b) :
    ∀ (fuel n d : Nat), d ∈ digitsBE b fuel n → d < b := by
  intro fuel
  induction fuel with
  | zero => intro n d h; simp [digitsBE] at h
  | succ f ih =>
    intro n d h
    by_cases h0 : n = 0
    · simp [digitsBE, h0] at h
    · simp only [digitsBE, h0, if_false, List.mem_append, List.mem_singleton] at h
      rcases h with h | h
      · exact ih _ _ h
      · rw [h]; exact Nat.mod_lt _ hb

theorem digitsBE_length_le (b : Nat) (hb : 2 ≤ b) :
    ∀ (fuel n k : Nat), n < b ^ k → (digitsBE b fuel n).length ≤ k := by
  intro fuel
  induction fuel with
  | zero => intro n k _; simp [digitsBE]
  | succ f ih =>
    intro n k h
    by_cases h0 : n = 0
    · simp [digitsBE, h0]
    · cases k with
      | zero => simp at h; omega
      | succ k =>
        simp only [digitsBE, h0, if_false, List.length_append, List.length_singleton]
        have : n / b < b ^ k := by
          rw [Nat.div_lt_iff_lt_mul (by omega)]
          rw [pow_succ] at h; exact h
        have := ih (n / b) k this
        omega

theorem digitsBE_ne_nil (b fuel n : Nat) (h0 : n ≠ 0) (hf : fuel ≠ 0) :
    digitsBE b fuel n ≠ [] := by
  cases fuel with
  | zero => exact absurd rfl hf
  | succ f => simp [digitsBE, h0]

theorem digitChar_val (d : Nat) (hd : d < 10) : (digitChar d).val = 48 + d := by
  simp only [digitChar, byteOfNat]
  omega

theorem byteOfNat_val (d : Nat) (hd : d < 256) : (byteOfNat d).val = d := by
  simp only [byteOfNat]
  omega

theorem scanDigits_map_digitChar (ds : List Nat) (hds : ∀ d ∈ ds, d < 10) :
    ∀ acc : Nat, scanDigits (ds.map digitChar) acc
      = some (ds.foldl (fun a d => a * 10 + d) acc) := by
  induction ds with
  | nil => intro acc; rfl
  | cons d t ih =>
    intro acc
    have hd : d < 10 := hds d (List.mem_cons_self _ _)
    have ht : ∀ e ∈ t, e < 10 := fun e he => hds e (List.mem_cons_of_mem _ he)
    have hv := digitChar_val d hd
    simp only [List.map_cons, scanDigits, List.foldl_cons]
    rw [if_pos (by omega), ih ht, hv]
    congr 2
    omega

theorem scanNat_natString (n : Nat) : scanNat (natString n) = some n := by
  by_cases h0 : n = 0
  · subst h0; decide
  · have hne := digitsBE_ne_nil 10 n n h0 h0
    have hlt : ∀ d ∈ digitsBE 10 n n, d < 10 := digitsBE_lt 10 (by decide) n n
    have hscan := scanDigits_map_digitChar _ hlt 0
    have hval := ofDigitsBE_digitsBE 10 (by decide) n n (le_refl n)
    simp only [natString, h0, if_false]
    cases hd : digitsBE 10 n n with
    | nil => exact absurd hd hne
    | cons d t =>
      rw [hd] at hscan hval
      simp only [List.map_cons, scanNat]
      simp only [List.map_cons] at hscan
      rw [hscan]
      exact congrArg some hval

theorem natString_digits (n : Nat) : ∀ c ∈ natString n, 48 ≤ c.val ∧ c.val ≤ 57 := by
  intro c hc
  by_cases h0 : n = 0
  · subst h0
    simp only [natString, if_true, List.mem_singleton] at hc
    subst hc; decide
  · simp only [natString, h0, if_false, List.mem_map] at hc
    obtain ⟨d, hd, rfl⟩ := hc
    have := digitsBE_lt 10 (by decide) n n d hd
    rw [digitChar_val d this]
    omega

theorem natString_ne_nil (n : Nat) : natString n ≠ [] := by
  intro h
  have := scanNat_natString n
  rw [h] at this
  simp [scanNat] at this

/-- Parsing the decimal text of a big integer gives the integer back. -/
theorem SetString_String (x : Int) : BigInt.SetString (BigInt.String x) = some x := by
  by_cases hx : x < 0
  · simp only [BigInt.String, hx, if_true, BigInt.SetString, scanNat_natString, Option.map_some']
    congr 1
    omega
  · simp only [BigInt.String, hx, if_false]
    have hs := scanNat_natString x.natAbs
    have hdig := natString_digits x.natAbs
    cases hstr : natString x.natAbs with
    | nil => exact absurd hstr (natString_ne_nil _)
    | cons c t =>
      rw [hstr] at hs hdig
      have hc := hdig c (List.mem_cons_self _ _)
      have h1 : c ≠ minusChar := by
        intro h; rw [h] at hc; revert hc; decide
      have h2 : c ≠ plusChar := by
        intro h; rw [h] at hc; revert hc; decide
      simp only [BigInt.SetString, h1, h2, if_false, hs, Option.map_some']
      congr 1
      omega

theorem ofDigitsBE_replicate_zero (b k : Nat) (l : List Nat) :
    ofDigitsBE b (List.replicate k 0 ++ l) = ofDigitsBE b l := by
  induction k with
  | zero => rfl
  | succ k ih =>
    simp only [List.replicate_succ, List.cons_append] at ih ⊢
    simpa [ofDigitsBE] using ih

theorem map_val_Bytes (n : Nat) :
    (BigInt.Bytes (n : Int)).map Fin.val = digitsBE 256 n n := by
  have hlt := digitsBE_lt 256 (by decide) n n
  simp only [BigInt.Bytes, Int.natAbs_ofNat, List.map_map]
  conv_rhs => rw [← List.map_id (digitsBE 256 n n)]
  apply List.map_congr_left
  intro d hd
  simp [byteOfNat_val d (hlt d hd)]

/-- Filling a buffer with a non-negative value that fits and reading it back
gives the value, and the buffer has the requested length. -/
theorem FillBytes_fits (x : Int) (n : Nat) (h0 : 0 ≤ x) (hx : x < 256 ^ n) :
    ∃ buf, BigInt.FillBytes x n = Outcome.ok buf ∧ buf.length = n ∧
      BigInt.SetBytes buf = x := by
  obtain ⟨m, rfl⟩ := Int.eq_ofNat_of_zero_le h0
  have hm : m < 256 ^ n := by exact_mod_cast hx
  have hlen : (BigInt.Bytes (m : Int)).length ≤ n := by
    have := digitsBE_length_le 256 (by decide) m m n hm
    simpa [BigInt.Bytes] using this
  refine ⟨List.replicate (n - (BigInt.Bytes (m : Int)).length) 0 ++ BigInt.Bytes (m : Int),
    ?_, ?_, ?_⟩
  · simp only [BigInt.FillBytes]
    rw [if_neg (by omega)]
  · simp only [List.length_append, List.length_replicate]
    omega
  · simp only [BigInt.SetBytes, List.map_append, List.map_replicate, map_val_Bytes]
    have h := ofDigitsBE_replicate_zero 256 (n - (BigInt.Bytes (m : Int)).length)
      (digitsBE 256 m m)
    have hz : ((0 : Byte) : Nat) = 0 := rfl
    rw [hz, h, ofDigitsBE_digitsBE 256 (by decide) m m (le_refl m)]

/-! ## Small evaluations -/

theorem p256_base_on_curve : P256.IsOnCurve p256Params.Gx p256Params.Gy = true := by decide

/-! ## Marshaling -/

/-- A point of a well-formed curve marshals without aborting, and unmarshals
to itself. -/
theorem Unmarshal_Marshal (c : Curve) (hc : c.WellFormed) (x y : Int)
    (h : c.IsOnCurve x y = true) :
    ∃ data, elliptic.Marshal c x y = Outcome.ok data ∧
      elliptic.Unmarshal c data = some (x, y) := by
  obtain ⟨hx0, hxP, hy0, hyP⟩ := hc.1 x y h
  obtain ⟨bx, hbx, hlx, hvx⟩ := FillBytes_fits x (byteLen c) hx0 (lt_of_lt_of_le hxP hc.2)
  obtain ⟨by_, hby, hly, hvy⟩ := FillBytes_fits y (byteLen c) hy0 (lt_of_lt_of_le hyP hc.2)
  refine ⟨(4 : Byte) :: (bx ++ by_), ?_, ?_⟩
  · simp only [elliptic.Marshal, h, hbx, hby]
    simp
  · have h1 : ((4 : Byte) :: (bx ++ by_)).length = 1 + 2 * byteLen c := by
      simp only [List.length_cons, List.length_append, hlx, hly]; omega
    have h2 : (((4 : Byte) :: (bx ++ by_)).drop 1).take (byteLen c) = bx := by
      simp only [List.drop_succ_cons, List.drop_zero]
      rw [← hlx]; exact List.take_left' rfl
    have h3 : ((4 : Byte) :: (bx ++ by_)).drop (1 + byteLen c) = by_ := by
      rw [Nat.add_comm, List.drop_succ_cons, ← hlx]
      exact List.drop_left' rfl
    unfold elliptic.Unmarshal
    rw [if_neg (by simp [h1])]
    rw [if_neg (by simp)]
    simp only [h2, h3, hvx, hvy, h]
    rw [if_neg (by omega)]
    simp

/-- Function `UnmarshalCustomCurve` undoes method `Marshal` on a key pair of a
well-formed curve whose public point is on the curve. -/
theorem UnmarshalCustomCurve_Marshal (c : Curve) (hc : c.WellFormed) (K : KeyPair)
    (h1 : K.curve = c) (h2 : K.privateKey.PublicKey.Curve = c)
    (h3 : c.IsOnCurve K.privateKey.PublicKey.X K.privateKey.PublicKey.Y = true) :
    ∃ priv pub, K.Marshal = Outcome.ok (priv, pub) ∧
      UnmarshalCustomCurve c priv pub = Outcome.ok K := by
  obtain ⟨data, hm, hu⟩ := Unmarshal_Marshal c hc _ _ h3
  obtain ⟨kc, ⟨⟨pc, X, Y⟩, D⟩⟩ := K
  simp only at h1 h2 h3 hm hu
  subst h1
  subst h2
  refine ⟨BigInt.String D, data, ?_, ?_⟩
  · simp only [KeyPair.Marshal, KeyPair.PublicKey, hm]
  · simp only [UnmarshalCustomCurve, SetString_String, UnmarshalPublicCustomCurve, hu]

/-! ## Sealed messages -/

theorem NewSharedSecret_ok (lib : Lib) (secret : ByteSeq) (s : SharedSecret)
    (h : NewSharedSecret lib secret = Outcome.ok s) :
    s.Secret = secret ∧
      ∃ cphr, lib.NewCipher secret = Except.ok cphr ∧ lib.NewGCM cphr = Except.ok s.gcm := by
  cases hc : lib.NewCipher secret with
  | error e => simp [NewSharedSecret, hc] at h
  | ok cphr =>
    cases hg : lib.NewGCM cphr with
    | error e => simp [NewSharedSecret, hc, hg] at h
    | ok gcm =>
      simp only [NewSharedSecret, hc, hg, Outcome.ok.injEq] at h
      subst h
      exact ⟨rfl, cphr, rfl, hg⟩

theorem sliceStr_head (s : ByteSeq) (n : Nat) (h : n ≤ s.length) :
    sliceStr s 0 n = Outcome.ok (s.take n) := by
  simp [sliceStr, h]

theorem sliceStr_tail (s : ByteSeq) (n : Nat) (h : n ≤ s.length) :
    sliceStr s n s.length = Outcome.ok (s.drop n) := by
  simp [sliceStr, h]

/-- Decrypting what a lawful AEAD sealed under a nonce of the right length
gives the message back. -/
theorem Decrypt_seal (s : SharedSecret) (hs : s.gcm.Lawful) (nonce message : ByteSeq)
    (hn : nonce.length = s.nonceSize) :
    s.Decrypt (s.seal nonce message) = Outcome.ok message := by
  have hseal : s.seal nonce message = nonce ++ s.gcm.Seal [] nonce message [] := by
    simp only [SharedSecret.seal]
    exact hs.seal_append nonce nonce message []
  have hlen : s.nonceSize ≤ (s.seal nonce message).length := by
    rw [hseal, List.length_append]; omega
  have htake : (s.seal nonce message).take s.nonceSize = nonce := by
    rw [hseal, ← hn]; exact List.take_left' rfl
  have hdrop : (s.seal nonce message).drop s.nonceSize = s.gcm.Seal [] nonce message [] := by
    rw [hseal, ← hn]; exact List.drop_left' rfl
  unfold SharedSecret.Decrypt
  simp only
  rw [if_neg (by omega), sliceStr_head _ _ hlen, sliceStr_tail _ _ hlen, htake, hdrop]
  simp only [SharedSecret.open]
  rw [hs.open_seal nonce message [] hn]

theorem ReadFull_ok (src : ByteSeq) (n : Nat) (buf : ByteSeq)
    (h : ReadFull src n = Except.ok buf) : buf.length = n ∧ buf = src.take n := by
  unfold ReadFull at h
  by_cases hle : n ≤ src.length
  · rw [if_pos hle] at h
    simp only [Except.ok.injEq] at h
    subst h
    exact ⟨by simp [hle], rfl⟩
  · rw [if_neg hle] at h
    split at h <;> simp at h

/-! ## Signatures and secrets: case analyses -/

theorem VerifyCustomPublic_cases (lib : Lib) (kp : KeyPair) (rStr sStr hash : ByteSeq)
    (publicKey : ecdsa.PublicKey) :
    (BigInt.SetString rStr = none ∧
      kp.VerifyCustomPublic lib rStr sStr hash publicKey
        = Outcome.error (Error.invalidR rStr)) ∨
    (∃ R, BigInt.SetString rStr = some R ∧ BigInt.SetString sStr = none ∧
      kp.VerifyCustomPublic lib rStr sStr hash publicKey
        = Outcome.error (Error.invalidS sStr)) ∨
    (∃ R S, BigInt.SetString rStr = some R ∧ BigInt.SetString sStr = some S ∧
      kp.VerifyCustomPublic lib rStr sStr hash publicKey
        = Outcome.ok (lib.Verify publicKey hash R S)) := by
  cases hr : BigInt.SetString rStr with
  | none => left; simp [KeyPair.VerifyCustomPublic, hr]
  | some R =>
    right
    cases hs : BigInt.SetString sStr with
    | none => left; exact ⟨R, rfl, rfl, by simp [KeyPair.VerifyCustomPublic, hr, hs]⟩
    | some S => right; exact ⟨R, S, rfl, rfl, by simp [KeyPair.VerifyCustomPublic, hr, hs]⟩

theorem UnmarshalPublicCustomCurve_cases (c : Curve) (publicKeyStr : ByteSeq) :
    (elliptic.Unmarshal c publicKeyStr = none ∧
      UnmarshalPublicCustomCurve c publicKeyStr
        = Outcome.error (Error.invalidPublicKey publicKeyStr)) ∨
    (∃ X Y, elliptic.Unmarshal c publicKeyStr = some (X, Y) ∧
      UnmarshalPublicCustomCurve c publicKeyStr
        = Outcome.ok { Curve := c, X := X, Y := Y }) := by
  cases hu : elliptic.Unmarshal c publicKeyStr with
  | none => left; simp [UnmarshalPublicCustomCurve, hu]
  | some p => right; exact ⟨p.1, p.2, rfl, by simp [UnmarshalPublicCustomCurve, hu]⟩

theorem Unmarshal_rejects (c : Curve) (data : ByteSeq)
    (h : data.length ≠ 1 + 2 * byteLen c ∨
      c.IsOnCurve (BigInt.SetBytes ((data.drop 1).take (byteLen c)))
        (BigInt.SetBytes (data.drop (1 + byteLen c))) = false) :
    elliptic.Unmarshal c data = none := by
  unfold elliptic.Unmarshal
  rcases h with h | h
  · rw [if_pos h]
  · split
    · rfl
    · split
      · rfl
      · simp only [h]
        split <;> simp

theorem GenerateSecret_cases (lib : Lib) (kp : KeyPair) (pub : ecdsa.PublicKey) :
    ((kp.curve.ScalarMult pub.X pub.Y (BigInt.Bytes kp.privateKey.D)).1 = none ∧
      kp.GenerateSecret lib pub = Outcome.error Error.generateSecretFailed) ∨
    (∃ x, (kp.curve.ScalarMult pub.X pub.Y (BigInt.Bytes kp.privateKey.D)).1 = some x ∧
      (BigInt.String x).length < 32 ∧ kp.GenerateSecret lib pub = Outcome.panic) ∨
    (∃ x, (kp.curve.ScalarMult pub.X pub.Y (BigInt.Bytes kp.privateKey.D)).1 = some x ∧
      32 ≤ (BigInt.String x).length ∧
      kp.GenerateSecret lib pub =
        match NewSharedSecret lib ((BigInt.String x).take 32) with
        | Outcome.ok sharedSecret => Outcome.ok sharedSecret
        | Outcome.error err => Outcome.error (Error.newSharedSecret err)
        | Outcome.panic => Outcome.panic) := by
  cases hx : (kp.curve.ScalarMult pub.X pub.Y (BigInt.Bytes kp.privateKey.D)).1 with
  | none => left; simp [KeyPair.GenerateSecret, hx]
  | some x =>
    right
    by_cases hlen : 32 ≤ (BigInt.String x).length
    · right
      refine ⟨x, rfl, hlen, ?_⟩
      simp only [KeyPair.GenerateSecret, hx, sliceStr_head _ _ hlen]
    · left
      refine ⟨x, rfl, by omega, ?_⟩
      simp [KeyPair.GenerateSecret, hx, sliceStr, hlen]

/-! ## Curve arithmetic and the group law -/

theorem powMod_eq (m : Nat) : ∀ (fuel b e : Nat), e < 2 ^ fuel →
    powMod m fuel b e = b ^ e % m := by
  intro fuel
  induction fuel with
  | zero =>
    intro b e he
    have : e = 0 := by simpa using he
    subst this
    simp [powMod]
  | succ f ih =>
    intro b e he
    by_cases h0 : e = 0
    · subst h0; simp [powMod]
    · have hlt : e / 2 < 2 ^ f := by
        rw [Nat.div_lt_iff_lt_mul (by decide)]
        rw [pow_succ] at he; exact he
      have hih := ih (b * b % m) (e / 2) hlt
      have hsq : (b * b % m) ^ (e / 2) % m = (b * b) ^ (e / 2) % m := by
        rw [Nat.pow_mod, Nat.mod_mod, ← Nat.pow_mod]
      have hpow : (b * b) ^ (e / 2) = b ^ (2 * (e / 2)) := by
        rw [pow_mul, pow_two]
      by_cases hodd : e % 2 = 1
      · simp only [powMod, h0, hodd, if_true, if_false]
        rw [hih, hsq, hpow, Nat.mul_mod, Nat.mod_mod, ← Nat.mul_mod, ← pow_succ']
        congr 2
        omega
      · simp only [powMod, h0, hodd, if_false]
        rw [hih, hsq, hpow]
        congr 2
        omega

section Field

variable (cp : CurveParams) (p : Nat) [hp : Fact p.Prime]

theorem modInverse_cast (m : Int) (hm : m = (p : Int)) (z : Int) (hz : (z : ZMod p) ≠ 0) :
    ((modInverse m z : Int) : ZMod p) = (z : ZMod p)⁻¹ := by
  have hp2 : 2 ≤ p := hp.out.two_le
  have hfuel : p - 2 < 2 ^ p := lt_of_le_of_lt (Nat.sub_le p 2) (Nat.lt_two_pow p)
  have hnn : 0 ≤ z % (p : Int) := Int.emod_nonneg z (by exact_mod_cast (by omega : p ≠ 0))
  have hcast : (((z % (p : Int)).toNat : Nat) : ZMod p) = (z : ZMod p) := by
    have h1 : (((z % (p : Int)).toNat : Nat) : Int) = z % (p : Int) := Int.toNat_of_nonneg hnn
    have h2 : ((((z % (p : Int)).toNat : Nat) : Int) : ZMod p) = ((z % (p : Int) : Int) : ZMod p) := by
      rw [h1]
    rw [Int.cast_natCast, ZMod.intCast_mod] at h2
    exact h2
  unfold modInverse
  rw [hm, Int.toNat_natCast, powMod_eq p p _ _ hfuel, Int.cast_natCast, ZMod.natCast_mod,
    Nat.cast_pow, hcast]
  have hone : (z : ZMod p) ^ (p - 2) * (z : ZMod p) = 1 := by
    rw [← pow_succ]
    have : p - 2 + 1 = p - 1 := by omega
    rw [this]
    exact ZMod.pow_card_sub_one_eq_one hz
  exact eq_inv_of_mul_eq_one_left hone

theorem inverse_cast (hP : cp.P = (p : Int)) (z : Int) (hz : (z : ZMod p) ≠ 0) :
    ((cp.inverse z : Int) : ZMod p) = (z : ZMod p)⁻¹ :=
  modInverse_cast p cp.P hP z hz

theorem emod_eq_zero_iff_cast (z : Int) : z % (p : Int) = 0 ↔ (z : ZMod p) = 0 := by
  rw [ZMod.intCast_zmod_eq_zero_iff_dvd, Int.dvd_iff_emod_eq_zero]

theorem emod_range (z : Int) : 0 ≤ z % (p : Int) ∧ z % (p : Int) < (p : Int) := by
  have hpos : (0 : Int) < (p : Int) := by exact_mod_cast hp.out.pos
  exact ⟨Int.emod_nonneg z (ne_of_gt hpos), Int.emod_lt_of_pos z hpos⟩

theorem cast_canonical_inj (a b : Int) (ha0 : 0 ≤ a) (ha : a < (p : Int)) (hb0 : 0 ≤ b)
    (hb : b < (p : Int)) (h : (a : ZMod p) = (b : ZMod p)) : a = b := by
  rw [ZMod.intCast_eq_intCast_iff'] at h
  rwa [Int.emod_eq_of_lt ha0 ha, Int.emod_eq_of_lt hb0 hb] at h

theorem two_ne_zero_zmod (h2 : p ≠ 2) : (2 : ZMod p) ≠ 0 := by
  intro h
  have h' : ((2 : Nat) : ZMod p) = 0 := by exact_mod_cast h
  rw [ZMod.natCast_zmod_eq_zero_iff_dvd] at h'
  have := (Nat.prime_dvd_prime_iff_eq hp.out Nat.prime_two).mp h'
  exact h2 this

theorem represents_ne_origin (hB : (cp.B : ZMod p) ≠ 0) (pt : Int × Int) {x y : ZMod p}
    (h : (cp.weierstrass p).toAffine.Nonsingular x y)
    (hr : cp.Represents p pt (WeierstrassCurve.Affine.Point.some h)) :
    ¬(pt.1 = 0 ∧ pt.2 = 0) := by
  rintro ⟨h1, h2⟩
  obtain ⟨_, _, _, _, hx, hy⟩ := hr
  rw [h1] at hx
  rw [h2] at hy
  have heq := h.1
  rw [← hx, ← hy] at heq
  simp only [Int.cast_zero, WeierstrassCurve.Affine.equation_zero] at heq
  exact hB heq

theorem represents_some_of_cast (hP : cp.P = (p : Int)) (u v : Int) {x y : ZMod p}
    (h : (cp.weierstrass p).toAffine.Nonsingular x y)
    (hu : (u : ZMod p) = x) (hv : (v : ZMod p) = y) :
    cp.Represents p (u % cp.P, v % cp.P) (WeierstrassCurve.Affine.Point.some h) := by
  rw [hP]
  have hru := emod_range p u
  have hrv := emod_range p v
  refine ⟨hru.1, ?_, hrv.1, ?_, ?_, ?_⟩
  · rw [hP]; exact hru.2
  · rw [hP]; exact hrv.2
  · show ((u % (p : Int) : Int) : ZMod p) = x
    rw [ZMod.intCast_mod, hu]
  · show ((v % (p : Int) : Int) : ZMod p) = y
    rw [ZMod.intCast_mod, hv]

theorem double_represents (hP : cp.P = (p : Int)) (h2 : p ≠ 2) (pt : Int × Int)
    (Q : (cp.weierstrass p).toAffine.Point) (hr : cp.Represents p pt Q) :
    cp.Represents p (cp.Double pt.1 pt.2) (Q + Q) := by
  cases Q with
  | zero =>
    have : pt = (0, 0) := hr
    subst this
    have : cp.Double 0 0 = (0, 0) := by simp [CurveParams.Double]
    simp only [this]
    rfl
  | @some x y h =>
    obtain ⟨ha0, haP, hb0, hbP, hx, hy⟩ := hr
    by_cases hz : pt.2 % cp.P = 0
    · have hy0 : y = 0 := by
        rw [hP, emod_eq_zero_iff_cast] at hz
        rw [← hy]; exact hz
      have hneg : y = (cp.weierstrass p).toAffine.negY x y := by
        simp [CurveParams.weierstrass, hy0]
      rw [WeierstrassCurve.Affine.Point.add_self_of_Y_eq hneg]
      simp only [CurveParams.Double, hz, if_true]
      rfl
    · have hy0 : y ≠ 0 := by
        rw [hP, emod_eq_zero_iff_cast] at hz
        rw [← hy]; exact hz
      have hneg : y ≠ (cp.weierstrass p).toAffine.negY x y := by
        simp only [CurveParams.weierstrass, WeierstrassCurve.Affine.negY, mul_zero, sub_zero,
          zero_mul]
        intro hc
        have : (2 : ZMod p) * y = 0 := by linear_combination hc
        rcases mul_eq_zero.mp this with h | h
        · exact two_ne_zero_zmod p h2 h
        · exact hy0 h
      rw [WeierstrassCurve.Affine.Point.add_self_of_Y_ne hneg]
      simp only [CurveParams.Double, hz, if_false]
      have h2y : ((2 * pt.2 : Int) : ZMod p) ≠ 0 := by
        push_cast
        rw [hy]
        exact mul_ne_zero (two_ne_zero_zmod p h2) hy0
      have hinv : ((cp.inverse (2 * pt.2) : Int) : ZMod p) = (2 * y)⁻¹ := by
        rw [inverse_cast cp p hP _ h2y]
        push_cast
        rw [hy]
      have hslope : (cp.weierstrass p).toAffine.slope x x y y = (3 * x ^ 2 - 3) * (2 * y)⁻¹ := by
        rw [WeierstrassCurve.Affine.slope_of_Y_ne rfl hneg]
        simp only [CurveParams.weierstrass, WeierstrassCurve.Affine.negY]
        rw [div_eq_mul_inv]
        ring
      refine represents_some_of_cast cp p hP _ _ _ ?_ ?_
      · rw [hslope]
        simp only [WeierstrassCurve.Affine.addX, CurveParams.weierstrass, hP]
        push_cast
        rw [hinv, hx]
        ring
      · rw [hslope]
        simp only [WeierstrassCurve.Affine.addY, WeierstrassCurve.Affine.negAddY,
          WeierstrassCurve.Affine.negY, WeierstrassCurve.Affine.addX, CurveParams.weierstrass, hP]
        push_cast
        rw [hinv, hx, hy]
        ring

theorem add_represents (hP : cp.P = (p : Int)) (h2 : p ≠ 2) (hB : (cp.B : ZMod p) ≠ 0)
    (pt1 pt2 : Int × Int) (Q1 Q2 : (cp.weierstrass p).toAffine.Point)
    (hr1 : cp.Represents p pt1 Q1) (hr2 : cp.Represents p pt2 Q2) :
    cp.Represents p (cp.Add pt1.1 pt1.2 pt2.1 pt2.2) (Q1 + Q2) := by
  cases Q1 with
  | zero =>
    have h1 : pt1 = (0, 0) := hr1
    subst h1
    have hadd : cp.Add 0 0 pt2.1 pt2.2 = pt2 := by simp [CurveParams.Add]
    simp only [hadd]
    rw [WeierstrassCurve.Affine.Point.zero_def, zero_add]
    exact hr2
  | @some x1 y1 h1 =>
    have hne1 := represents_ne_origin cp p hB pt1 h1 hr1
    cases Q2 with
    | zero =>
      have h : pt2 = (0, 0) := hr2
      subst h
      have hadd : cp.Add pt1.1 pt1.2 0 0 = pt1 := by simp [CurveParams.Add, hne1]
      simp only [hadd]
      rw [WeierstrassCurve.Affine.Point.zero_def, add_zero]
      exact hr1
    | @some x2 y2 h2' =>
      have hne2 := represents_ne_origin cp p hB pt2 h2' hr2
      obtain ⟨ha0, haP, hb0, hbP, hx1, hy1⟩ := hr1
      obtain ⟨hc0, hcP, hd0, hdP, hx2, hy2⟩ := hr2
      by_cases hxe : (pt1.1 - pt2.1) % cp.P = 0
      · have hxx : x1 = x2 := by
          rw [hP, emod_eq_zero_iff_cast] at hxe
          push_cast at hxe
          rw [hx1, hx2] at hxe
          exact sub_eq_zero.mp hxe
        by_cases hye : (pt1.2 + pt2.2) % cp.P = 0
        · have hyy : y1 = (cp.weierstrass p).toAffine.negY x2 y2 := by
            rw [hP, emod_eq_zero_iff_cast] at hye
            push_cast at hye
            rw [hy1, hy2] at hye
            simp only [CurveParams.weierstrass, WeierstrassCurve.Affine.negY, mul_zero, sub_zero,
              zero_mul]
            exact eq_neg_of_add_eq_zero_left hye
          rw [WeierstrassCurve.Affine.Point.add_of_Y_eq hxx hyy]
          simp only [CurveParams.Add, hne1, hne2, hxe, hye, if_true, if_false]
          rfl
        · have hyy : y1 ≠ (cp.weierstrass p).toAffine.negY x2 y2 := by
            rw [hP, emod_eq_zero_iff_cast] at hye
            push_cast at hye
            rw [hy1, hy2] at hye
            simp only [CurveParams.weierstrass, WeierstrassCurve.Affine.negY, mul_zero, sub_zero,
              zero_mul]
            intro hc
            apply hye
            rw [hc]; ring
          have hyeq : y1 = y2 := WeierstrassCurve.Affine.Y_eq_of_Y_ne h1.1 h2'.1 hxx hyy
          subst hxx
          subst hyeq
          simp only [CurveParams.Add, hne1, hne2, hxe, hye, if_true, if_false]
          exact double_represents cp p hP h2 pt1 (WeierstrassCurve.Affine.Point.some h1)
            ⟨ha0, haP, hb0, hbP, hx1, hy1⟩
      · have hxx : x1 ≠ x2 := by
          rw [hP, emod_eq_zero_iff_cast] at hxe
          push_cast at hxe
          rw [hx1, hx2] at hxe
          exact fun h => hxe (sub_eq_zero.mpr h)
        have hdx : ((pt2.1 - pt1.1 : Int) : ZMod p) ≠ 0 := by
          push_cast
          rw [hx1, hx2]
          exact fun h => hxx (sub_eq_zero.mp h).symm
        have hinv : ((cp.inverse (pt2.1 - pt1.1) : Int) : ZMod p) = (x2 - x1)⁻¹ := by
          rw [inverse_cast cp p hP _ hdx]
          push_cast
          rw [hx1, hx2]
        have hslope : (cp.weierstrass p).toAffine.slope x1 x2 y1 y2
            = (y2 - y1) * (x2 - x1)⁻¹ := by
          rw [WeierstrassCurve.Affine.slope_of_X_ne hxx, div_eq_mul_inv]
          have hd : x1 - x2 ≠ 0 := sub_ne_zero.mpr hxx
          have hd' : x2 - x1 ≠ 0 := sub_ne_zero.mpr (Ne.symm hxx)
          field_simp
          ring
        rw [WeierstrassCurve.Affine.Point.add_of_X_ne hxx]
        simp only [CurveParams.Add, hne1, hne2, hxe, if_false]
        refine represents_some_of_cast cp p hP _ _ _ ?_ ?_
        · rw [hslope]
          simp only [WeierstrassCurve.Affine.addX, CurveParams.weierstrass, hP]
          push_cast
          rw [hinv, hx1, hx2, hy1, hy2]
          ring
        · rw [hslope]
          simp only [WeierstrassCurve.Affine.addY, WeierstrassCurve.Affine.negAddY,
            WeierstrassCurve.Affine.negY, WeierstrassCurve.Affine.addX, CurveParams.weierstrass,
            hP]
          push_cast
          rw [hinv, hx1, hx2, hy1, hy2]
          ring

omit hp in
theorem represents_emod (pt : Int × Int)
    (Q : (cp.weierstrass p).toAffine.Point) (hr : cp.Represents p pt Q) :
    (pt.1 % cp.P, pt.2 % cp.P) = pt := by
  cases Q with
  | zero =>
    have h : pt = (0, 0) := hr
    subst h
    simp
  | @some x y h =>
    obtain ⟨ha0, haP, hb0, hbP, _, _⟩ := hr
    rw [Int.emod_eq_of_lt ha0 haP, Int.emod_eq_of_lt hb0 hbP]

theorem represents_inj (hP : cp.P = (p : Int)) (pt1 pt2 : Int × Int)
    (Q : (cp.weierstrass p).toAffine.Point) (hr1 : cp.Represents p pt1 Q)
    (hr2 : cp.Represents p pt2 Q) : pt1 = pt2 := by
  cases Q with
  | zero =>
    have h1 : pt1 = (0, 0) := hr1
    have h2 : pt2 = (0, 0) := hr2
    rw [h1, h2]
  | @some x y h =>
    obtain ⟨ha0, haP, hb0, hbP, hx1, hy1⟩ := hr1
    obtain ⟨hc0, hcP, hd0, hdP, hx2, hy2⟩ := hr2
    rw [hP] at haP hbP hcP hdP
    have e1 := cast_canonical_inj p _ _ ha0 haP hc0 hcP (hx1.trans hx2.symm)
    have e2 := cast_canonical_inj p _ _ hb0 hbP hd0 hdP (hy1.trans hy2.symm)
    exact Prod.ext e1 e2

theorem scalarStep_represents (hP : cp.P = (p : Int)) (h2 : p ≠ 2) (hB : (cp.B : ZMod p) ≠ 0)
    (Bx By : Int) (Qb : (cp.weierstrass p).toAffine.Point)
    (hb : cp.Represents p (Bx, By) Qb) (acc : Int × Int) (n : Nat)
    (hacc : cp.Represents p acc (n • Qb)) (bit : Bool) :
    cp.Represents p (cp.scalarStep Bx By acc bit) ((2 * n + (if bit then 1 else 0)) • Qb) := by
  have hd := double_represents cp p hP h2 acc (n • Qb) hacc
  have hdd : n • Qb + n • Qb = (2 * n) • Qb := by rw [two_mul, add_nsmul]
  rw [hdd] at hd
  cases bit with
  | false =>
    simp only [CurveParams.scalarStep, Bool.false_eq_true, if_false, add_zero]
    exact hd
  | true =>
    have ha := add_represents cp p hP h2 hB (Bx, By) _ Qb _ hb hd
    have haa : Qb + (2 * n) • Qb = (2 * n + 1) • Qb := by rw [add_comm, succ_nsmul]
    rw [haa] at ha
    simp only [CurveParams.scalarStep, if_true]
    exact ha

theorem foldl_scalarStep_represents (hP : cp.P = (p : Int)) (h2 : p ≠ 2)
    (hB : (cp.B : ZMod p) ≠ 0) (Bx By : Int) (Qb : (cp.weierstrass p).toAffine.Point)
    (hb : cp.Represents p (Bx, By) Qb) :
    ∀ (bits : List Bool) (acc : Int × Int) (n : Nat), cp.Represents p acc (n • Qb) →
      cp.Represents p (bits.foldl (cp.scalarStep Bx By) acc) (bitsValue n bits • Qb) := by
  intro bits
  induction bits with
  | nil => intro acc n h; exact h
  | cons b t ih =>
    intro acc n h
    simp only [List.foldl_cons, bitsValue]
    exact ih _ _ (scalarStep_represents cp p hP h2 hB Bx By Qb hb acc n h b)

theorem ScalarMult_represents (hP : cp.P = (p : Int)) (h2 : p ≠ 2)
    (hB : (cp.B : ZMod p) ≠ 0) (Bx By : Int) (Qb : (cp.weierstrass p).toAffine.Point)
    (hb : cp.Represents p (Bx, By) Qb) (k : ByteSeq) :
    cp.Represents p (cp.ScalarMult Bx By k) (bitsValue 0 (k.flatMap byteBits) • Qb) := by
  have h0 : cp.Represents p (0, 0) ((0 : Nat) • Qb) := by
    rw [zero_nsmul]; rfl
  have h := foldl_scalarStep_represents cp p hP h2 hB Bx By Qb hb (k.flatMap byteBits) (0, 0) 0 h0
  have he := represents_emod cp p _ _ h
  simp only [CurveParams.ScalarMult]
  rw [he]
  exact h

theorem weierstrass_Δ : (cp.weierstrass p).Δ = ((1728 - 432 * cp.B * cp.B : Int) : ZMod p) := by
  simp only [WeierstrassCurve.Δ, WeierstrassCurve.b₂, WeierstrassCurve.b₄, WeierstrassCurve.b₆,
    WeierstrassCurve.b₈, CurveParams.weierstrass]
  push_cast
  ring

theorem onCurve_represents (hP : cp.P = (p : Int)) (hΔ : (cp.weierstrass p).Δ ≠ 0)
    (x y : Int) (h : cp.IsOnCurve x y = true) :
    ∃ Q : (cp.weierstrass p).toAffine.Point, cp.Represents p (x, y) Q := by
  unfold CurveParams.IsOnCurve at h
  by_cases hr : x < 0 ∨ cp.P ≤ x ∨ y < 0 ∨ cp.P ≤ y
  · rw [if_pos hr] at h; exact absurd h (by decide)
  · rw [if_neg hr] at h
    have heq := of_decide_eq_true h
    rw [hP, ← ZMod.intCast_eq_intCast_iff'] at heq
    push_cast at heq
    have hE : (cp.weierstrass p).toAffine.Equation (x : ZMod p) (y : ZMod p) := by
      rw [WeierstrassCurve.Affine.equation_iff]
      simp only [CurveParams.weierstrass]
      linear_combination -heq
    have hN := WeierstrassCurve.Affine.nonsingular_of_Δ_ne_zero _ hE hΔ
    refine ⟨WeierstrassCurve.Affine.Point.some hN, ?_⟩
    exact ⟨by omega, by omega, by omega, by omega, rfl, rfl⟩

end Field

theorem CurveParams.Valid.setup (cp : CurveParams) (h : cp.Valid) :
    ∃ p : Nat, Nat.Prime p ∧ cp.P = (p : Int) ∧ p ≠ 2 ∧ (cp.B : ZMod p) ≠ 0 ∧
      (cp.weierstrass p).Δ ≠ 0 := by
  obtain ⟨hprime, h2, hB, hΔ, _⟩ := h
  haveI : Fact (Nat.Prime cp.P.toNat) := ⟨hprime⟩
  have hpos : 0 ≤ cp.P := by
    by_contra hneg
    have : cp.P.toNat = 0 := Int.toNat_eq_zero.mpr (by omega)
    rw [this] at hprime
    exact Nat.not_prime_zero hprime
  have hP : cp.P = (cp.P.toNat : Int) := (Int.toNat_of_nonneg hpos).symm
  refine ⟨cp.P.toNat, hprime, hP, ?_, ?_, ?_⟩
  · intro hc
    apply h2
    rw [hP, hc]; rfl
  · intro hc
    apply hB
    rw [hP]
    exact (emod_eq_zero_iff_cast cp.P.toNat cp.B).mpr hc
  · rw [weierstrass_Δ]
    intro hc
    apply hΔ
    rw [hP]
    exact (emod_eq_zero_iff_cast cp.P.toNat _).mpr hc

/-- On a valid curve, scalar multiplication commutes: the curve arithmetic is
that of the commutative group of points. -/
theorem CurveParams.toCurve_commutes (cp : CurveParams) (h : cp.Valid) :
    cp.toCurve.ScalarMultCommutes := by
  obtain ⟨p, hprime, hP, h2, hB, hΔ⟩ := CurveParams.Valid.setup cp h
  haveI : Fact p.Prime := ⟨hprime⟩
  obtain ⟨QG, hG⟩ := onCurve_represents cp p hP hΔ cp.Gx cp.Gy h.2.2.2.2
  intro a b xa ya xb yb ha hb
  simp only [CurveParams.toCurve, Prod.mk.injEq, Option.some.injEq,
    CurveParams.ScalarBaseMult] at ha hb ⊢
  have hra := ScalarMult_represents cp p hP h2 hB cp.Gx cp.Gy QG hG a
  have hrb := ScalarMult_represents cp p hP h2 hB cp.Gx cp.Gy QG hG b
  have hpa : cp.ScalarMult cp.Gx cp.Gy a = (xa, ya) := Prod.ext ha.1 ha.2
  have hpb : cp.ScalarMult cp.Gx cp.Gy b = (xb, yb) := Prod.ext hb.1 hb.2
  rw [hpa] at hra
  rw [hpb] at hrb
  have hab := ScalarMult_represents cp p hP h2 hB xb yb _ hrb a
  have hba := ScalarMult_represents cp p hP h2 hB xa ya _ hra b
  rw [smul_comm] at hab
  have := represents_inj cp p hP _ _ _ hab hba
  rw [this]


/-! ## The model of the library keeps the AEAD contract -/

theorem xorByte_val (a b : Byte) : (xorByte a b).val = a.val ^^^ b.val := by
  have h : a.val ^^^ b.val < 2 ^ 8 := Nat.xor_lt_two_pow a.isLt b.isLt
  simp only [xorByte, byteOfNat]
  exact Nat.mod_eq_of_lt h

theorem xorByte_cancel (a k : Byte) : xorByte (xorByte a k) k = a := by
  apply Fin.ext
  rw [xorByte_val, xorByte_val, Nat.xor_assoc, Nat.xor_self, Nat.xor_zero]

theorem xorFrom_length (ks : Nat → Byte) (m : ByteSeq) :
    ∀ i, (xorFrom ks i m).length = m.length := by
  induction m with
  | nil => intro i; rfl
  | cons b t ih => intro i; simp [xorFrom, ih]

theorem xorFrom_cancel (ks : Nat → Byte) (m : ByteSeq) :
    ∀ i, xorFrom ks i (xorFrom ks i m) = m := by
  induction m with
  | nil => intro i; rfl
  | cons b t ih => intro i; simp [xorFrom, ih, xorByte_cancel]

theorem modelTag_length (blk : Block) (nonce ciphertext ad : ByteSeq) :
    (modelTag blk nonce ciphertext ad).length = 16 := by
  simp [modelTag, xorFrom_length, checksum]

theorem modelGCM_lawful (blk : Block) : (modelGCM blk).Lawful := by
  constructor
  · intro dst nonce plaintext ad
    simp [modelGCM]
  · intro nonce plaintext ad _
    have hlen := modelTag_length blk nonce (xorFrom (keyStream blk nonce) 0 plaintext) ad
    simp only [modelGCM, List.nil_append, List.length_append, hlen, Nat.add_sub_cancel]
    rw [if_neg (by omega), List.drop_left, List.take_left, if_pos rfl, xorFrom_cancel]

theorem modelLib_AEADLawful : modelLib.AEADLawful := by
  intro key cphr gcm _ hg
  simp only [modelLib] at hg
  split at hg
  · simp only [Except.ok.injEq] at hg
    subst hg
    exact modelGCM_lawful cphr
  · simp at hg

/-! ## Primality of the P-256 field prime and group order

Pocklington's criterion, and certificates for the two primes. -/

/-- One prime factor `q` of `n - 1`, with a base `a` of order divisible by it:
every prime factor `r` of `n` has `q ∣ r - 1`. -/
theorem pocklington_step (n q a r : Nat) (hn : 1 < n) (hq : q.Prime) (hqd : q ∣ n - 1)
    (h1 : powMod n n a (n - 1) = 1)
    (hg : Nat.gcd (powMod n n a ((n - 1) / q) + (n - 1)) n = 1)
    (hr : r.Prime) (hrn : r ∣ n) : q ∣ r - 1 := by
  haveI : Fact r.Prime := ⟨hr⟩
  have hlt1 : n - 1 < 2 ^ n := lt_of_le_of_lt (Nat.sub_le n 1) (Nat.lt_two_pow n)
  have hlt2 : (n - 1) / q < 2 ^ n := lt_of_le_of_lt (Nat.div_le_self _ _) hlt1
  rw [powMod_eq n n a _ hlt1] at h1
  rw [powMod_eq n n a _ hlt2] at hg
  -- a ^ (n - 1) = 1 in ZMod r
  have hpow : (a : ZMod r) ^ (n - 1) = 1 := by
    have h : ((a ^ (n - 1) % n : Nat) : ZMod r) = ((1 : Nat) : ZMod r) := by rw [h1]
    have hmod : ((a ^ (n - 1) % n : Nat) : ZMod r) = ((a ^ (n - 1) : Nat) : ZMod r) := by
      rw [ZMod.natCast_eq_natCast_iff]
      exact Nat.ModEq.of_dvd hrn (Nat.mod_modEq (a ^ (n - 1)) n)
    rw [hmod] at h
    simpa using h
  have hne : (a : ZMod r) ^ ((n - 1) / q) ≠ 1 := by
    intro hc
    have hmod : ((a ^ ((n - 1) / q) % n : Nat) : ZMod r) = 1 := by
      have : ((a ^ ((n - 1) / q) % n : Nat) : ZMod r) = ((a ^ ((n - 1) / q) : Nat) : ZMod r) := by
        rw [ZMod.natCast_eq_natCast_iff]
        exact Nat.ModEq.of_dvd hrn (Nat.mod_modEq (a ^ ((n - 1) / q)) n)
      rw [this]
      simpa using hc
    have hdvd : r ∣ a ^ ((n - 1) / q) % n + (n - 1) := by
      rw [← ZMod.natCast_zmod_eq_zero_iff_dvd]
      push_cast
      rw [hmod]
      have hn0 : ((n : Nat) : ZMod r) = 0 := (ZMod.natCast_zmod_eq_zero_iff_dvd n r).mpr hrn
      have : ((n - 1 : Nat) : ZMod r) = (n : ZMod r) - 1 := by
        rw [Nat.cast_sub (le_of_lt hn)]; simp
      rw [this, hn0]; ring
    have := Nat.dvd_gcd hdvd hrn
    rw [hg] at this
    exact hr.one_lt.ne' (Nat.dvd_one.mp this)
  have ha0 : (a : ZMod r) ≠ 0 := by
    intro h0
    rw [h0, zero_pow (by omega)] at hpow
    exact zero_ne_one hpow
  have hord1 : orderOf (a : ZMod r) ∣ n - 1 := orderOf_dvd_of_pow_eq_one hpow
  have hord2 : orderOf (a : ZMod r) ∣ r - 1 :=
    orderOf_dvd_of_pow_eq_one (ZMod.pow_card_sub_one_eq_one ha0)
  have hord3 : ¬ orderOf (a : ZMod r) ∣ (n - 1) / q := fun h =>
    hne (orderOf_dvd_iff_pow_eq_one.mp h)
  obtain ⟨t, ht⟩ := hord1
  have hqt : ¬ q ∣ t := by
    rintro ⟨s, hs⟩
    apply hord3
    refine ⟨s, ?_⟩
    rw [ht, hs, ← mul_assoc, mul_comm (orderOf (a : ZMod r)) q, mul_assoc,
      Nat.mul_div_cancel_left _ hq.pos]
  have hqm : q ∣ orderOf (a : ZMod r) := by
    rw [ht] at hqd
    exact (hq.dvd_mul.mp hqd).resolve_right hqt
  exact dvd_trans hqm hord2

/-- Pocklington's criterion with two prime factors of `n - 1` whose product
exceeds the square root of `n`. -/
theorem pocklington (n q1 q2 a1 a2 : Nat) (hn : 1 < n) (hq1 : q1.Prime) (hq2 : q2.Prime)
    (hne : q1 ≠ q2) (hd1 : q1 ∣ n - 1) (hd2 : q2 ∣ n - 1) (hF : n < (q1 * q2) * (q1 * q2))
    (h1 : powMod n n a1 (n - 1) = 1)
    (g1 : Nat.gcd (powMod n n a1 ((n - 1) / q1) + (n - 1)) n = 1)
    (h2 : powMod n n a2 (n - 1) = 1)
    (g2 : Nat.gcd (powMod n n a2 ((n - 1) / q2) + (n - 1)) n = 1) : n.Prime := by
  by_contra hnp
  have hr : n.minFac.Prime := Nat.minFac_prime (by omega)
  have hrn : n.minFac ∣ n := Nat.minFac_dvd n
  have hsq : n.minFac ^ 2 ≤ n := Nat.minFac_sq_le_self (by omega) hnp
  have e1 := pocklington_step n q1 a1 n.minFac hn hq1 hd1 h1 g1 hr hrn
  have e2 := pocklington_step n q2 a2 n.minFac hn hq2 hd2 h2 g2 hr hrn
  have hco : Nat.Coprime q1 q2 := (Nat.coprime_primes hq1 hq2).mpr hne
  have hdvd : q1 * q2 ∣ n.minFac - 1 := hco.mul_dvd_of_dvd_of_dvd e1 e2
  have hpos : 0 < n.minFac - 1 := by have := hr.two_le; omega
  have hle : q1 * q2 ≤ n.minFac - 1 := Nat.le_of_dvd hpos hdvd
  have : (q1 * q2) * (q1 * q2) ≤ n.minFac ^ 2 := by
    rw [pow_two]
    exact Nat.mul_le_mul (by omega) (by omega)
  omega

section Certificates

set_option maxRecDepth 100000

theorem prime_3677 : Nat.Prime 3677 := by norm_num

theorem prime_173 : Nat.Prime 173 := by norm_num

theorem prime_66417393611 : Nat.Prime 66417393611 :=
  pocklington 66417393611 3677 173 2 2 (by decide) prime_3677 prime_173 (by decide)
    (by decide) (by decide) (by decide) (by decide) (by decide) (by decide) (by decide)

theorem prime_2 : Nat.Prime 2 := by norm_num

theorem prime_11290956913871 : Nat.Prime 11290956913871 :=
  pocklington 11290956913871 66417393611 2 2 13 (by decide) prime_66417393611 prime_2 (by decide)
    (by decide) (by decide) (by decide) (by decide) (by decide) (by decide) (by decide)

theorem prime_3769 : Nat.Prime 3769 := by norm_num

theorem prime_11 : Nat.Prime 11 := by norm_num

theorem prime_204061199 : Nat.Prime 204061199 :=
  pocklington 204061199 3769 11 2 3 (by decide) prime_3769 prime_11 (by decide)
    (by decide) (by decide) (by decide) (by decide) (by decide) (by decide) (by decide)

theorem prime_34282281433 : Nat.Prime 34282281433 :=
  pocklington 34282281433 204061199 2 2 5 (by decide) prime_204061199 prime_2 (by decide)
    (by decide) (by decide) (by decide) (by decide) (by decide) (by decide) (by decide)

theorem prime_774023187263532362759620327192479577272145303 : Nat.Prime 774023187263532362759620327192479577272145303 :=
  pocklington 774023187263532362759620327192479577272145303 11290956913871 34282281433 2 2 (by decide) prime_11290956913871 prime_34282281433 (by decide)
    (by decide) (by decide) (by decide) (by decide) (by decide) (by decide) (by decide)

theorem prime_835945042244614951780389953367877943453916927241 : Nat.Prime 835945042244614951780389953367877943453916927241 :=
  pocklington 835945042244614951780389953367877943453916927241 774023187263532362759620327192479577272145303 2 2 7 (by decide) prime_774023187263532362759620327192479577272145303 prime_2 (by decide)
    (by decide) (by decide) (by decide) (by decide) (by decide) (by decide) (by decide)

theorem prime_115792089210356248762697446949407573530086143415290314195533631308867097853951 : Nat.Prime 115792089210356248762697446949407573530086143415290314195533631308867097853951 :=
  pocklington 115792089210356248762697446949407573530086143415290314195533631308867097853951 835945042244614951780389953367877943453916927241 2 2 3 (by decide) prime_835945042244614951780389953367877943453916927241 prime_2 (by decide)
    (by decide) (by decide) (by decide) (by decide) (by decide) (by decide) (by decide)

theorem prime_155317 : Nat.Prime 155317 := by norm_num

theorem prime_191039911 : Nat.Prime 191039911 :=
  pocklington 191039911 155317 2 2 3 (by decide) prime_155317 prime_2 (by decide)
    (by decide) (by decide) (by decide) (by decide) (by decide) (by decide) (by decide)

theorem prime_3 : Nat.Prime 3 := by norm_num

theorem prime_208150935158385979 : Nat.Prime 208150935158385979 :=
  pocklington 208150935158385979 191039911 3 2 2 (by decide) prime_191039911 prime_3 (by decide)
    (by decide) (by decide) (by decide) (by decide) (by decide) (by decide) (by decide)

theorem prime_2624747550333869278416773953 : Nat.Prime 2624747550333869278416773953 :=
  pocklington 2624747550333869278416773953 208150935158385979 2 2 5 (by decide) prime_208150935158385979 prime_2 (by decide)
    (by decide) (by decide) (by decide) (by decide) (by decide) (by decide) (by decide)

theorem prime_104471 : Nat.Prime 104471 := by norm_num

theorem prime_3969899 : Nat.Prime 3969899 :=
  pocklington 3969899 104471 2 2 2 (by decide) prime_104471 prime_2 (by decide)
    (by decide) (by decide) (by decide) (by decide) (by decide) (by decide) (by decide)

theorem prime_1002328039319 : Nat.Prime 1002328039319 :=
  pocklington 1002328039319 3969899 2 2 19 (by decide) prime_3969899 prime_2 (by decide)
    (by decide) (by decide) (by decide) (by decide) (by decide) (by decide) (by decide)

theorem prime_115792089210356248762697446949407573529996955224135760342422259061068512044369 : Nat.Prime 115792089210356248762697446949407573529996955224135760342422259061068512044369 :=
  pocklington 115792089210356248762697446949407573529996955224135760342422259061068512044369 2624747550333869278416773953 1002328039319 2 2 (by decide) prime_2624747550333869278416773953 prime_1002328039319 (by decide)
    (by decide) (by decide) (by decide) (by decide) (by decide) (by decide) (by decide)

end Certificates

/-! ## P-256 -/

theorem p256Params_valid : p256Params.Valid :=
  ⟨prime_115792089210356248762697446949407573530086143415290314195533631308867097853951,
    by decide, by decide, by decide, by decide⟩

theorem P256_commutes : P256.ScalarMultCommutes :=
  CurveParams.toCurve_commutes p256Params p256Params_valid

theorem toCurve_wellFormed (cp : CurveParams) (h : cp.P ≤ 256 ^ ((cp.BitSize + 7) / 8)) :
    cp.toCurve.WellFormed := by
  refine ⟨?_, h⟩
  intro x y hxy
  simp only [CurveParams.toCurve, CurveParams.IsOnCurve] at hxy ⊢
  by_cases hr : x < 0 ∨ cp.P ≤ x ∨ y < 0 ∨ cp.P ≤ y
  · rw [if_pos hr] at hxy
    exact absurd hxy (by decide)
  · omega

theorem P256_wellFormed : P256.WellFormed := toCurve_wellFormed p256Params (by decide)

theorem toCurve_canonical (cp : CurveParams) (h : 0 < cp.P) :
    cp.toCurve.CanonicalCoordinates := by
  intro Bx By k x hx
  simp only [CurveParams.toCurve, CurveParams.ScalarMult, Option.some.injEq] at hx
  rw [← hx]
  exact Int.emod_nonneg _ (ne_of_gt h)

theorem P256_canonical : P256.CanonicalCoordinates := toCurve_canonical p256Params (by decide)

section Evaluations

set_option maxRecDepth 100000

theorem aliceKey_derived : aliceKey.DerivedOn P256 :=
  ⟨rfl, rfl, by decide⟩

theorem bobKey_derived : bobKey.DerivedOn P256 :=
  ⟨rfl, rfl, by decide⟩

theorem unitKey_derived : unitKey.DerivedOn P256 :=
  ⟨rfl, rfl, by decide⟩

theorem alice_bob_x :
    (P256.ScalarMult bobKey.PublicKey.X bobKey.PublicKey.Y (BigInt.Bytes aliceKey.privateKey.D)).1
      = some 79653159259317329199152975905021693207262715618295428672027927511489832980905 := by
  decide

theorem alice_bob_slice :
    sliceStr (BigInt.String
      79653159259317329199152975905021693207262715618295428672027927511489832980905) 0 32
      = Outcome.ok aliceBobKey := by
  decide

theorem alice_bob_secret :
    aliceKey.GenerateSecret modelLib bobKey.PublicKey = Outcome.ok aliceBobSecret := by
  have hx := alice_bob_x
  have hs := alice_bob_slice
  have hc : aliceKey.curve = P256 := rfl
  simp only [KeyPair.GenerateSecret, hc, hx, hs]
  rfl

theorem unitKey_shortPoint_x :
    (P256.ScalarMult shortPoint.X shortPoint.Y (BigInt.Bytes unitKey.privateKey.D)).1
      = some 5 := by
  decide

theorem unitKey_infinity_x :
    (P256.ScalarMult infinityPoint.X infinityPoint.Y (BigInt.Bytes unitKey.privateKey.D)).1
      = some 0 := by
  decide

end Evaluations

theorem BigInt_String_nonneg_digits (x : Int) (hx : 0 ≤ x) :
    ∀ c ∈ BigInt.String x, 48 ≤ c.val ∧ c.val ≤ 57 := by
  have h : ¬ x < 0 := by omega
  simp only [BigInt.String, h, if_false]
  exact natString_digits x.natAbs

/-! ## The model of ECDSA keeps the signature contract -/

theorem bitsValue_linear (bits : List Bool) :
    ∀ acc, bitsValue acc bits = acc * 2 ^ bits.length + bitsValue 0 bits := by
  induction bits with
  | nil => intro acc; simp [bitsValue]
  | cons b t ih =>
    intro acc
    have h1 := ih (2 * acc + (if b then 1 else 0))
    have h2 := ih (2 * 0 + (if b then 1 else 0))
    simp only [bitsValue, List.foldl_cons, List.length_cons] at h1 h2 ⊢
    rw [h1, h2, pow_succ]
    ring

set_option maxRecDepth 100000 in
theorem bitsValue_byteBits_zero : ∀ b : Byte, bitsValue 0 (byteBits b) = b.val := by
  decide

theorem bitsValue_byteBits (b : Byte) (acc : Nat) :
    bitsValue acc (byteBits b) = acc * 256 + b.val := by
  rw [bitsValue_linear, bitsValue_byteBits_zero]
  simp [byteBits]

theorem bitsValue_append (acc : Nat) (l1 l2 : List Bool) :
    bitsValue acc (l1 ++ l2) = bitsValue (bitsValue acc l1) l2 := by
  simp [bitsValue, List.foldl_append]

theorem bitsValue_bytes (bs : ByteSeq) :
    ∀ acc, bitsValue acc (bs.flatMap byteBits)
      = (bs.map Fin.val).foldl (fun a d => a * 256 + d) acc := by
  induction bs with
  | nil => intro acc; rfl
  | cons b t ih =>
    intro acc
    simp only [List.flatMap_cons, bitsValue_append, bitsValue_byteBits, ih, List.map_cons,
      List.foldl_cons]

theorem bitsValue_Bytes (z : Int) :
    bitsValue 0 ((BigInt.Bytes z).flatMap byteBits) = z.natAbs := by
  rw [bitsValue_bytes]
  have h := map_val_Bytes z.natAbs
  have hz : BigInt.Bytes (z.natAbs : Int) = BigInt.Bytes z := by
    simp only [BigInt.Bytes, Int.natAbs_ofNat]
  rw [hz] at h
  rw [h]
  exact ofDigitsBE_digitsBE 256 (by decide) _ _ (le_refl _)

theorem nsmul_eq_of_cast_eq {G : Type} [AddCommGroup G] (Q : G) (q : Nat) (hq : q • Q = 0)
    (a b : Nat) (h : (a : ZMod q) = (b : ZMod q)) : a • Q = b • Q := by
  have hmod : ∀ n : Nat, n • Q = (n % q) • Q := by
    intro n
    conv_lhs => rw [← Nat.mod_add_div n q]
    rw [add_nsmul, mul_comm, mul_nsmul', hq, nsmul_zero, add_zero]
  rw [ZMod.natCast_eq_natCast_iff] at h
  rw [hmod a, hmod b, h]

theorem represents_origin_zero (cp : CurveParams) (p : Nat) [Fact p.Prime]
    (hB : (cp.B : ZMod p) ≠ 0) (Q : (cp.weierstrass p).toAffine.Point)
    (h : cp.Represents p (0, 0) Q) : Q = 0 := by
  cases Q with
  | zero => rfl
  | @some x y hh => exact absurd ⟨rfl, rfl⟩ (represents_ne_origin cp p hB (0, 0) hh h)

theorem randFieldElement_range (c : Curve) (rand : ByteSeq) (k : Int) (hN : 1 < c.Params.N)
    (h : randFieldElement c rand = Except.ok k) : 1 ≤ k ∧ k < c.Params.N := by
  unfold randFieldElement at h
  cases hr : ReadFull rand (c.Params.BitSize / 8 + 8) with
  | error e => rw [hr] at h; simp at h
  | ok b =>
    rw [hr] at h
    simp only [Except.ok.injEq] at h
    have h0 : 0 ≤ BigInt.SetBytes b % (c.Params.N - 1) := Int.emod_nonneg _ (by omega)
    have h1 : BigInt.SetBytes b % (c.Params.N - 1) < c.Params.N - 1 :=
      Int.emod_lt_of_pos _ (by omega)
    omega

theorem cast_ne_zero_of_range (N : Int) (q : Nat) (hNq : N = (q : Int)) (z : Int)
    (h0 : 0 < z) (hlt : z < N) : ((z : Int) : ZMod q) ≠ 0 := by
  subst hNq
  intro hc
  rw [ZMod.intCast_zmod_eq_zero_iff_dvd] at hc
  have := Int.le_of_dvd h0 hc
  omega

theorem cast_emod_eq (N : Int) (q : Nat) (hNq : N = (q : Int)) (A : Int) :
    ((A % N : Int) : ZMod q) = ((A : Int) : ZMod q) := by
  subst hNq
  exact ZMod.intCast_mod A q

theorem natAbs_cast_zmod (q : Nat) (z : Int) (h0 : 0 ≤ z) :
    ((z.natAbs : Nat) : ZMod q) = ((z : Int) : ZMod q) := by
  have h : ((z.natAbs : Nat) : Int) = z := Int.natAbs_of_nonneg h0
  rw [← Int.cast_natCast, h]

theorem modelLib_signatureCorrect (cp : CurveParams) (hv : cp.Valid)
    (hN : Nat.Prime cp.N.toNat) (hord : cp.ScalarBaseMult (BigInt.Bytes cp.N) = (0, 0)) :
    modelLib.SignatureCorrect cp.toCurve := by
  obtain ⟨p, hprime, hP, h2, hB, hΔ⟩ := CurveParams.Valid.setup cp hv
  haveI : Fact p.Prime := ⟨hprime⟩
  haveI hNf : Fact (Nat.Prime cp.N.toNat) := ⟨hN⟩
  obtain ⟨QG, hG⟩ := onCurve_represents cp p hP hΔ cp.Gx cp.Gy hv.2.2.2.2
  have hq2 : 2 ≤ cp.N.toNat := hN.two_le
  have hNq : cp.N = (cp.N.toNat : Int) := by omega
  have hNabs : cp.N.natAbs = cp.N.toNat := by omega
  have hordQ : cp.N.toNat • QG = 0 := by
    have h := ScalarMult_represents cp p hP h2 hB cp.Gx cp.Gy QG hG (BigInt.Bytes cp.N)
    rw [bitsValue_Bytes, hNabs] at h
    have : cp.ScalarMult cp.Gx cp.Gy (BigInt.Bytes cp.N) = (0, 0) := hord
    rw [this] at h
    exact represents_origin_zero cp p hB _ h
  intro rand priv hash r s hcurve hD1 hDN hpub hsign
  obtain ⟨⟨pc, X, Y⟩, D⟩ := priv
  simp only at hcurve hD1 hDN hpub
  subst hcurve
  have hcN : cp.toCurve.Params.N = cp.N := rfl
  have hsb : ∀ z, cp.toCurve.ScalarBaseMult z
      = (some (cp.ScalarMult cp.Gx cp.Gy z).1, some (cp.ScalarMult cp.Gx cp.Gy z).2) :=
    fun _ => rfl
  have hsm : ∀ bx by_ z, cp.toCurve.ScalarMult bx by_ z
      = (some (cp.ScalarMult bx by_ z).1, some (cp.ScalarMult bx by_ z).2) := fun _ _ _ => rfl
  have hadd : ∀ x1 y1 x2 y2, cp.toCurve.Add x1 y1 x2 y2
      = (some (cp.Add x1 y1 x2 y2).1, some (cp.Add x1 y1 x2 y2).2) := fun _ _ _ _ => rfl
  rw [hcN] at hDN
  simp only [modelLib, modelSign, hcN, hsb] at hsign
  simp only [hsb, Prod.mk.injEq, Option.some.injEq] at hpub
  cases hk : randFieldElement cp.toCurve rand with
  | error e => rw [hk] at hsign; simp at hsign
  | ok k =>
    obtain ⟨hk1, hkN⟩ := randFieldElement_range cp.toCurve rand k (by rw [hcN]; omega) hk
    rw [hcN] at hkN
    rw [hk] at hsign
    simp only at hsign
    split at hsign
    · simp at hsign
    · rename_i hrs
      simp only [Except.ok.injEq, Prod.mk.injEq] at hsign
      obtain ⟨hr, hs⟩ := hsign
      rw [hr] at hrs hs
      rw [hs] at hrs
      push_neg at hrs
      obtain ⟨hr0, hs0⟩ := hrs
      have hNpos : (0 : Int) < cp.N := by omega
      have hrR : 0 ≤ r ∧ r < cp.N := by
        rw [← hr]; exact ⟨Int.emod_nonneg _ (ne_of_gt hNpos), Int.emod_lt_of_pos _ hNpos⟩
      have hsR : 0 ≤ s ∧ s < cp.N := by
        rw [← hs]; exact ⟨Int.emod_nonneg _ (ne_of_gt hNpos), Int.emod_lt_of_pos _ hNpos⟩
      simp only [modelLib, modelVerify, hcN, hsb, hsm, hadd]
      generalize hashToInt hash cp.toCurve = e at hs ⊢
      -- the field of scalars
      have hkF : ((k : Int) : ZMod cp.N.toNat) ≠ 0 :=
        cast_ne_zero_of_range cp.N cp.N.toNat hNq k (by omega) hkN
      have hsF0 : ((s : Int) : ZMod cp.N.toNat) ≠ 0 :=
        cast_ne_zero_of_range cp.N cp.N.toNat hNq s (by omega) hsR.2
      have hsF : ((s : Int) : ZMod cp.N.toNat)
          = ((D : Int) * (r : Int) + (e : Int) : ZMod cp.N.toNat) * ((k : Int) : ZMod cp.N.toNat)⁻¹ := by
        rw [← hs, cast_emod_eq cp.N cp.N.toNat hNq, Int.cast_mul,
          modInverse_cast cp.N.toNat cp.N hNq k hkF]
        push_cast
        rfl
      have hDre : ((D : Int) * (r : Int) + (e : Int) : ZMod cp.N.toNat) ≠ 0 := by
        intro hc
        rw [hc, zero_mul] at hsF
        exact hsF0 hsF
      have hw : ((modInverse cp.N s : Int) : ZMod cp.N.toNat) = ((s : Int) : ZMod cp.N.toNat)⁻¹ :=
        modInverse_cast cp.N.toNat cp.N hNq s hsF0
      have hu1R : 0 ≤ e * modInverse cp.N s % cp.N := Int.emod_nonneg _ (ne_of_gt hNpos)
      have hu2R : 0 ≤ r * modInverse cp.N s % cp.N := Int.emod_nonneg _ (ne_of_gt hNpos)
      have hscal : (((e * modInverse cp.N s % cp.N).natAbs
          + (r * modInverse cp.N s % cp.N).natAbs * D.natAbs : Nat) : ZMod cp.N.toNat)
          = ((k.natAbs : Nat) : ZMod cp.N.toNat) := by
        push_cast
        rw [natAbs_cast_zmod _ _ hu1R, natAbs_cast_zmod _ _ hu2R, natAbs_cast_zmod _ _ (by omega),
          natAbs_cast_zmod _ _ (by omega : 0 ≤ k), cast_emod_eq cp.N cp.N.toNat hNq,
          cast_emod_eq cp.N cp.N.toNat hNq]
        push_cast
        rw [hw, hsF]
        field_simp
        ring
      -- the points
      have hp1 := ScalarMult_represents cp p hP h2 hB cp.Gx cp.Gy QG hG
        (BigInt.Bytes (e * modInverse cp.N s % cp.N))
      have hQ := ScalarMult_represents cp p hP h2 hB cp.Gx cp.Gy QG hG (BigInt.Bytes D)
      have hQ' : cp.ScalarMult cp.Gx cp.Gy (BigInt.Bytes D) = (X, Y) := Prod.ext hpub.1 hpub.2
      rw [hQ'] at hQ
      have hp2 := ScalarMult_represents cp p hP h2 hB X Y _ hQ
        (BigInt.Bytes (r * modInverse cp.N s % cp.N))
      have hpk := ScalarMult_represents cp p hP h2 hB cp.Gx cp.Gy QG hG (BigInt.Bytes k)
      rw [bitsValue_Bytes] at hp1 hp2 hpk
      rw [bitsValue_Bytes] at hp2
      have hsum := add_represents cp p hP h2 hB _ _ _ _ hp1 hp2
      have hpt : (e * modInverse cp.N s % cp.N).natAbs • QG
          + (r * modInverse cp.N s % cp.N).natAbs • D.natAbs • QG = k.natAbs • QG := by
        rw [← mul_nsmul', ← add_nsmul]
        exact nsmul_eq_of_cast_eq QG cp.N.toNat hordQ _ _ hscal
      rw [hpt] at hsum
      have heq := represents_inj cp p hP _ _ _ hsum hpk
      -- the verdict
      rw [if_neg (by omega), if_neg (by omega)]
      simp only [heq, hr]
      have hx0 : (cp.ScalarMult cp.Gx cp.Gy (BigInt.Bytes k)).1 ≠ 0 := by
        intro hc
        rw [hc] at hr
        simp at hr
        exact hr0 hr.symm
      simp [hx0]

theorem p256_order : p256Params.ScalarBaseMult (BigInt.Bytes p256Params.N) = (0, 0) := by
  decide!

theorem modelLib_signatureCorrect_P256 : modelLib.SignatureCorrect P256 :=
  modelLib_signatureCorrect p256Params p256Params_valid
    prime_115792089210356248762697446949407573529996955224135760342422259061068512044369
    p256_order

theorem aliceKey_generated : aliceKey.Generated P256 :=
  ⟨aliceKey_derived, by decide, by decide, by decide⟩

theorem aliceKey_Sign :
    aliceKey.Sign modelLib sampleRand = Outcome.ok (sampleR, sampleS, sampleHash) := by
  decide!

theorem Sign_SignCustomCache (lib : Lib) (K : KeyPair) (rand R S hash : ByteSeq)
    (h : K.Sign lib rand = Outcome.ok (R, S, hash)) :
    hash.length = 64 ∧ K.SignCustomCache lib (rand.drop 64) hash = Outcome.ok (R, S) := by
  unfold KeyPair.Sign at h
  cases hr : Read rand 64 with
  | error e => rw [hr] at h; simp at h
  | ok hash' =>
    rw [hr] at h
    simp only at h
    cases hs : K.SignCustomCache lib (rand.drop 64) hash' with
    | error e => rw [hs] at h; simp at h
    | panic => rw [hs] at h; simp at h
    | ok v =>
      rw [hs] at h
      obtain ⟨R', S'⟩ := v
      simp only [Outcome.ok.injEq, Prod.mk.injEq] at h
      obtain ⟨h1, h2, h3⟩ := h
      subst h1 h2 h3
      refine ⟨?_, hs⟩
      unfold Read at hr
      split at hr
      · simp at hr
      · simp only [Except.ok.injEq] at hr
        subst hr
        simp only [List.length_append, List.length_take, List.length_replicate]
        omega

theorem SignCustomCache_Verify (lib : Lib) (c : Curve) (K : KeyPair)
    (rand hash R S : ByteSeq) (hc : c.WellFormed) (hsig : lib.SignatureCorrect c)
    (hK : K.Generated c) (h : K.SignCustomCache lib rand hash = Outcome.ok (R, S)) :
    ∃ priv pub, K.Marshal = Outcome.ok (priv, pub) ∧
      K.Verify lib R S hash pub = Outcome.ok true := by
  obtain ⟨⟨hKc, hKp, hder⟩, hD1, hDN, hon⟩ := hK
  obtain ⟨data, hm, hu⟩ := Unmarshal_Marshal c hc _ _ hon
  obtain ⟨kc, ⟨⟨pc, X, Y⟩, D⟩⟩ := K
  simp only at hKc hKp hder hD1 hDN hon hm hu
  subst hKc
  subst hKp
  refine ⟨BigInt.String D, data, ?_, ?_⟩
  · simp only [KeyPair.Marshal, KeyPair.PublicKey, hm]
  · unfold KeyPair.SignCustomCache at h
    simp only [KeyPair.PrivateKey] at h
    cases hs : lib.Sign rand { PublicKey := { Curve := pc, X := X, Y := Y }, D := D } hash with
    | error e => rw [hs] at h; simp at h
    | ok v =>
      obtain ⟨r, s⟩ := v
      rw [hs] at h
      simp only [Outcome.ok.injEq, Prod.mk.injEq] at h
      obtain ⟨hR, hS⟩ := h
      have hver := hsig rand _ hash r s rfl hD1 hDN hder hs
      simp only at hver
      simp only [KeyPair.Verify, UnmarshalPublicCustomCurve, hu, KeyPair.VerifyCustomPublic,
        ← hR, ← hS, SetString_String, hver]

/-! ## The claims -/

/-- C5. Decrypt on an input shorter than the AEAD nonce size returns the error
`Invalid NonceSize` (with it Go returns the empty string): it neither aborts
on a slice nor reaches the AEAD, whose `Open` may be replaced by any function
without changing the result. -/
theorem Decrypt_short_input (secret : SharedSecret) (encrypted : ByteSeq)
    (openFn : ByteSeq → ByteSeq → ByteSeq → ByteSeq → Except Error ByteSeq)
    (h : encrypted.length < secret.nonceSize) :
    secret.Decrypt encrypted = Outcome.error Error.invalidNonceSize ∧
    SharedSecret.Decrypt
      { Secret := secret.Secret,
        gcm := { NonceSize := secret.gcm.NonceSize, Overhead := secret.gcm.Overhead,
                 Seal := secret.gcm.Seal, Open := openFn } } encrypted
      = Outcome.error Error.invalidNonceSize := by
  constructor
  · simp only [SharedSecret.Decrypt]
    rw [if_pos h]
  · have hn : encrypted.length < secret.gcm.NonceSize := h
    simp only [SharedSecret.Decrypt, SharedSecret.nonceSize]
    rw [if_pos hn]

theorem Decrypt_short_input_witness :
    ([] : ByteSeq).length < sampleSecret.nonceSize ∧
    sampleSecret.Decrypt [] = Outcome.error Error.invalidNonceSize :=
  ⟨by decide,
    (Decrypt_short_input sampleSecret [] (fun _ _ _ _ => Except.ok []) (by decide)).1⟩

/-- C2. Two shared secrets built by `NewSharedSecret` from the same secret
string, over a library whose AEADs keep the AEAD contract: for every message
(empty or not, any bytes) and every random source that yields a nonce,
`Encrypt` with the first returns a ciphertext, and `Decrypt` with the second
returns the message with no error. -/
theorem Encrypt_Decrypt_roundtrip (lib : Lib) (secret : ByteSeq) (s1 s2 : SharedSecret)
    (rand message : ByteSeq) (hlib : lib.AEADLawful)
    (h1 : NewSharedSecret lib secret = Outcome.ok s1)
    (h2 : NewSharedSecret lib secret = Outcome.ok s2)
    (hr : s1.nonceSize ≤ rand.length) :
    ∃ encrypted, s1.Encrypt rand message = Outcome.ok encrypted ∧
      s2.Decrypt encrypted = Outcome.ok message := by
  have hs : s1 = s2 := by
    rw [h1] at h2
    exact Outcome.ok.inj h2
  subst hs
  obtain ⟨_, cphr, hc, hg⟩ := NewSharedSecret_ok lib secret s1 h1
  have hlaw := hlib secret cphr s1.gcm hc hg
  refine ⟨s1.seal (rand.take s1.nonceSize) message, ?_, ?_⟩
  · simp only [SharedSecret.Encrypt, ReadFull]
    rw [if_pos hr]
  · exact Decrypt_seal s1 hlaw _ message (by simp [hr])

theorem Encrypt_Decrypt_roundtrip_witness :
    modelLib.AEADLawful ∧
    NewSharedSecret modelLib sampleKey = Outcome.ok sampleSecret ∧
    sampleSecret.nonceSize ≤ (List.replicate 12 (7 : Byte)).length ∧
    ∃ encrypted,
      sampleSecret.Encrypt (List.replicate 12 7) [255, 0, 128] = Outcome.ok encrypted ∧
      sampleSecret.Decrypt encrypted = Outcome.ok [255, 0, 128] :=
  ⟨modelLib_AEADLawful, rfl, by decide,
    Encrypt_Decrypt_roundtrip modelLib sampleKey sampleSecret sampleSecret
      (List.replicate 12 7) [255, 0, 128] modelLib_AEADLawful rfl rfl (by decide)⟩

/-- C6. A public-key string that is not `1 + 2 * byteLen` bytes long, or whose
decoded coordinates the curve does not accept as a point, makes
`UnmarshalPublicCustomCurve` return the error `Invalid publicKey` and no key,
and then `UnmarshalCustomCurve` returns an error whatever the private-key
string is. -/
theorem Unmarshal_invalid_public (c : Curve) (privateKeyStr publicKeyStr : ByteSeq)
    (h : publicKeyStr.length ≠ 1 + 2 * byteLen c ∨
      c.IsOnCurve (BigInt.SetBytes ((publicKeyStr.drop 1).take (byteLen c)))
        (BigInt.SetBytes (publicKeyStr.drop (1 + byteLen c))) = false) :
    UnmarshalPublicCustomCurve c publicKeyStr
        = Outcome.error (Error.invalidPublicKey publicKeyStr) ∧
    ∃ err, UnmarshalCustomCurve c privateKeyStr publicKeyStr = Outcome.error err := by
  have hu := Unmarshal_rejects c publicKeyStr h
  have hp : UnmarshalPublicCustomCurve c publicKeyStr
      = Outcome.error (Error.invalidPublicKey publicKeyStr) := by
    simp only [UnmarshalPublicCustomCurve, hu]
  refine ⟨hp, ?_⟩
  cases hd : BigInt.SetString privateKeyStr with
  | none => exact ⟨Error.invalidPrivateKey, by simp only [UnmarshalCustomCurve, hd]⟩
  | some D =>
    exact ⟨Error.invalidPublicKey publicKeyStr, by simp only [UnmarshalCustomCurve, hd, hp]⟩

theorem Unmarshal_invalid_public_witness :
    (([4, 1, 2] : ByteSeq).length ≠ 1 + 2 * byteLen P256 ∨
      P256.IsOnCurve (BigInt.SetBytes ((([4, 1, 2] : ByteSeq).drop 1).take (byteLen P256)))
        (BigInt.SetBytes (([4, 1, 2] : ByteSeq).drop (1 + byteLen P256))) = false) ∧
    UnmarshalPublicCustomCurve P256 [4, 1, 2] = Outcome.error (Error.invalidPublicKey [4, 1, 2]) :=
  ⟨Or.inl (by decide), (Unmarshal_invalid_public P256 [49] [4, 1, 2] (Or.inl (by decide))).1⟩

/-- C8. `VerifyCustomPublic` returns an error exactly when the R string or the
S string is not a base-10 integer, and never aborts; when both parse, it
returns the verdict of the signature primitive with no error.  `Verify` returns
an error exactly when the public-key string does not decode or one of the two
strings does not parse, and on a decodable public key it is
`VerifyCustomPublic` on the decoded point. -/
theorem Verify_error_iff (lib : Lib) (kp : KeyPair) (rStr sStr hash publicKeyStr : ByteSeq)
    (publicKey : ecdsa.PublicKey) :
    ((∃ err, kp.VerifyCustomPublic lib rStr sStr hash publicKey = Outcome.error err) ↔
      (BigInt.SetString rStr = none ∨ BigInt.SetString sStr = none)) ∧
    kp.VerifyCustomPublic lib rStr sStr hash publicKey ≠ Outcome.panic ∧
    (∀ R S, BigInt.SetString rStr = some R → BigInt.SetString sStr = some S →
      kp.VerifyCustomPublic lib rStr sStr hash publicKey
        = Outcome.ok (lib.Verify publicKey hash R S)) ∧
    ((∃ err, kp.Verify lib rStr sStr hash publicKeyStr = Outcome.error err) ↔
      (elliptic.Unmarshal kp.curve publicKeyStr = none ∨
        BigInt.SetString rStr = none ∨ BigInt.SetString sStr = none)) ∧
    (∀ X Y, elliptic.Unmarshal kp.curve publicKeyStr = some (X, Y) →
      kp.Verify lib rStr sStr hash publicKeyStr
        = kp.VerifyCustomPublic lib rStr sStr hash { Curve := kp.curve, X := X, Y := Y }) := by
  have hV : ∀ pk : ecdsa.PublicKey,
      ((∃ err, kp.VerifyCustomPublic lib rStr sStr hash pk = Outcome.error err) ↔
        (BigInt.SetString rStr = none ∨ BigInt.SetString sStr = none)) := by
    intro pk
    rcases VerifyCustomPublic_cases lib kp rStr sStr hash pk with
      ⟨hr, hv⟩ | ⟨R, hr, hs, hv⟩ | ⟨R, S, hr, hs, hv⟩
    · exact ⟨fun _ => Or.inl hr, fun _ => ⟨_, hv⟩⟩
    · exact ⟨fun _ => Or.inr hs, fun _ => ⟨_, hv⟩⟩
    · rw [hv, hr, hs]
      simp
  refine ⟨hV publicKey, ?_, ?_, ?_, ?_⟩
  · rcases VerifyCustomPublic_cases lib kp rStr sStr hash publicKey with
      ⟨_, hv⟩ | ⟨R, _, _, hv⟩ | ⟨R, S, _, _, hv⟩ <;> rw [hv] <;> simp
  · intro R S hr hs
    simp only [KeyPair.VerifyCustomPublic, hr, hs]
  · rcases UnmarshalPublicCustomCurve_cases kp.curve publicKeyStr with
      ⟨hu, hp⟩ | ⟨X, Y, hu, hp⟩
    · simp only [KeyPair.Verify, hp, hu, true_or, iff_true]
      exact ⟨_, rfl⟩
    · have hv : kp.Verify lib rStr sStr hash publicKeyStr
          = kp.VerifyCustomPublic lib rStr sStr hash { Curve := kp.curve, X := X, Y := Y } := by
        simp only [KeyPair.Verify, hp]
      rw [hv, hV, hu]
      simp
  · intro X Y hu
    simp only [KeyPair.Verify, UnmarshalPublicCustomCurve, hu]

/-- C1. Two key pairs on the same curve, each with public point equal to its
private scalar times the base point, on a curve whose scalar multiplication
commutes: `A.GenerateSecret(B.PublicKey())` and `B.GenerateSecret(A.PublicKey())`
are the same outcome, so when one returns a SharedSecret the other returns it
too, with the same Secret bytes. -/
theorem GenerateSecret_symmetric (lib : Lib) (c : Curve) (A B : KeyPair)
    (hc : c.ScalarMultCommutes) (hA : A.DerivedOn c) (hB : B.DerivedOn c) :
    A.GenerateSecret lib B.PublicKey = B.GenerateSecret lib A.PublicKey := by
  obtain ⟨hAc, _, hAp⟩ := hA
  obtain ⟨hBc, _, hBp⟩ := hB
  have hx := hc (BigInt.Bytes A.privateKey.D) (BigInt.Bytes B.privateKey.D) _ _ _ _ hAp hBp
  simp only [KeyPair.GenerateSecret, KeyPair.PublicKey, hAc, hBc, hx]

theorem GenerateSecret_symmetric_witness :
    P256.ScalarMultCommutes ∧ aliceKey.DerivedOn P256 ∧ bobKey.DerivedOn P256 ∧
    aliceKey.GenerateSecret modelLib bobKey.PublicKey = Outcome.ok aliceBobSecret ∧
    aliceKey.GenerateSecret modelLib bobKey.PublicKey
      = bobKey.GenerateSecret modelLib aliceKey.PublicKey :=
  ⟨P256_commutes, aliceKey_derived, bobKey_derived, alice_bob_secret,
    GenerateSecret_symmetric modelLib P256 aliceKey bobKey P256_commutes aliceKey_derived
      bobKey_derived⟩

/-- C3. A key pair on the default curve P-256 whose public point is on the
curve (in particular a generated one): `Marshal` returns its two strings
without aborting, and `Unmarshal` of the two strings succeeds and returns a
key pair equal to it, with the same curve, private scalar and public point. -/
theorem Unmarshal_Marshal_roundtrip (K : KeyPair) (h1 : K.curve = P256)
    (h2 : K.privateKey.PublicKey.Curve = P256)
    (h3 : P256.IsOnCurve K.privateKey.PublicKey.X K.privateKey.PublicKey.Y = true) :
    ∃ priv pub, K.Marshal = Outcome.ok (priv, pub) ∧ Unmarshal priv pub = Outcome.ok K :=
  UnmarshalCustomCurve_Marshal P256 P256_wellFormed K h1 h2 h3

theorem Unmarshal_Marshal_roundtrip_witness :
    aliceKey.curve = P256 ∧ aliceKey.privateKey.PublicKey.Curve = P256 ∧
    P256.IsOnCurve aliceKey.privateKey.PublicKey.X aliceKey.privateKey.PublicKey.Y = true ∧
    ∃ priv pub, aliceKey.Marshal = Outcome.ok (priv, pub) ∧
      Unmarshal priv pub = Outcome.ok aliceKey :=
  ⟨rfl, rfl, by decide, Unmarshal_Marshal_roundtrip aliceKey rfl rfl (by decide)⟩

/-- C9. When `GenerateSecret` returns a SharedSecret, on a curve that returns
coordinates in canonical form, its Secret is the first 32 characters of the
decimal text of the x-coordinate of `privateScalar * peerPoint`: 32 bytes, all
of them ASCII digits, and the AEAD of the SharedSecret is the one built from
the cipher keyed with that Secret. -/
theorem GenerateSecret_key (lib : Lib) (kp : KeyPair) (pub : ecdsa.PublicKey)
    (s : SharedSecret) (hcan : kp.curve.CanonicalCoordinates)
    (h : kp.GenerateSecret lib pub = Outcome.ok s) :
    ∃ x, (kp.curve.ScalarMult pub.X pub.Y (BigInt.Bytes kp.privateKey.D)).1 = some x ∧
      s.Secret = (BigInt.String x).take 32 ∧ s.Secret.length = 32 ∧
      (∀ c ∈ s.Secret, 48 ≤ c.val ∧ c.val ≤ 57) ∧
      ∃ cphr, lib.NewCipher s.Secret = Except.ok cphr ∧ lib.NewGCM cphr = Except.ok s.gcm := by
  rcases GenerateSecret_cases lib kp pub with ⟨_, hg⟩ | ⟨x, _, _, hg⟩ | ⟨x, hx, hlen, hg⟩
  · rw [hg] at h; exact absurd h (by simp)
  · rw [hg] at h; exact absurd h (by simp)
  · rw [hg] at h
    cases hn : NewSharedSecret lib ((BigInt.String x).take 32) with
    | error e => rw [hn] at h; exact absurd h (by simp)
    | panic => rw [hn] at h; exact absurd h (by simp)
    | ok s' =>
      rw [hn] at h
      simp only [Outcome.ok.injEq] at h
      subst h
      obtain ⟨hsec, cphr, hc, hgcm⟩ := NewSharedSecret_ok lib _ s' hn
      refine ⟨x, hx, hsec, ?_, ?_, cphr, ?_, hgcm⟩
      · rw [hsec]; simp [hlen]
      · intro c hcm
        rw [hsec] at hcm
        exact BigInt_String_nonneg_digits x (hcan _ _ _ x hx) c (List.mem_of_mem_take hcm)
      · rw [hsec]; exact hc

theorem GenerateSecret_key_witness :
    aliceKey.curve.CanonicalCoordinates ∧
    aliceKey.GenerateSecret modelLib bobKey.PublicKey = Outcome.ok aliceBobSecret ∧
    ∃ x, (aliceKey.curve.ScalarMult bobKey.PublicKey.X bobKey.PublicKey.Y
        (BigInt.Bytes aliceKey.privateKey.D)).1 = some x ∧
      aliceBobSecret.Secret = (BigInt.String x).take 32 ∧ aliceBobSecret.Secret.length = 32 ∧
      (∀ c ∈ aliceBobSecret.Secret, 48 ≤ c.val ∧ c.val ≤ 57) ∧
      ∃ cphr, modelLib.NewCipher aliceBobSecret.Secret = Except.ok cphr ∧
        modelLib.NewGCM cphr = Except.ok aliceBobSecret.gcm :=
  ⟨P256_canonical, alice_bob_secret,
    GenerateSecret_key modelLib aliceKey bobKey.PublicKey aliceBobSecret P256_canonical
      alice_bob_secret⟩

/-- C10, at an input where it fails. The point `(5, y)` is on P-256, and for the
key pair with private scalar 1 the shared x-coordinate is 5, whose decimal
text has one character: the slice `[0:32]` is out of range and `GenerateSecret`
aborts, whatever the library. -/
theorem GenerateSecret_short_x_aborts (lib : Lib) :
    P256.IsOnCurve shortPoint.X shortPoint.Y = true ∧ unitKey.DerivedOn P256 ∧
    unitKey.GenerateSecret lib shortPoint = Outcome.panic := by
  refine ⟨by decide, unitKey_derived, ?_⟩
  rcases GenerateSecret_cases lib unitKey shortPoint with ⟨hn, _⟩ | ⟨x, _, _, hg⟩ | ⟨x, hx, hlen, _⟩
  · have h := unitKey_shortPoint_x
    have hc : unitKey.curve = P256 := rfl
    rw [hc, h] at hn
    exact absurd hn (by simp)
  · exact hg
  · have h := unitKey_shortPoint_x
    have hc : unitKey.curve = P256 := rfl
    rw [hc, h] at hx
    simp only [Option.some.injEq] at hx
    subst hx
    exact absurd hlen (by decide)

/-- C7, at an input where it fails. For the peer point `(0, 0)`, the point at
infinity, scalar multiplication on P-256 returns `(0, 0)`: the x-coordinate is
not `nil`, its decimal text is `0`, and `GenerateSecret` aborts on the slice
instead of returning an error. -/
theorem GenerateSecret_infinity_aborts (lib : Lib) :
    (P256.ScalarMult infinityPoint.X infinityPoint.Y (BigInt.Bytes unitKey.privateKey.D)).1
      = some 0 ∧
    unitKey.GenerateSecret lib infinityPoint = Outcome.panic := by
  refine ⟨unitKey_infinity_x, ?_⟩
  rcases GenerateSecret_cases lib unitKey infinityPoint with
    ⟨hn, _⟩ | ⟨x, _, _, hg⟩ | ⟨x, hx, hlen, _⟩
  · have h := unitKey_infinity_x
    have hc : unitKey.curve = P256 := rfl
    rw [hc, h] at hn
    exact absurd hn (by simp)
  · exact hg
  · have h := unitKey_infinity_x
    have hc : unitKey.curve = P256 := rfl
    rw [hc, h] at hx
    simp only [Option.some.injEq] at hx
    subst hx
    exact absurd hlen (by decide)

/-- C4. A key pair generated on a well-formed curve, over a library whose
signature primitive is correct on that curve: when `SignCustomCache(h)`
returns `(R, S)` for a hash `h` (of 64 bytes or any other length), or `Sign()`
returns `(R, S, h)` for the 64-byte hash it drew, then `Verify(R, S, h, pub)`
with the public string `pub` of `Marshal()` returns true with no error. -/
theorem Sign_Verify (lib : Lib) (c : Curve) (K : KeyPair) (rand hash R S : ByteSeq)
    (hc : c.WellFormed) (hsig : lib.SignatureCorrect c) (hK : K.Generated c)
    (h : K.SignCustomCache lib rand hash = Outcome.ok (R, S) ∨
      K.Sign lib rand = Outcome.ok (R, S, hash)) :
    ∃ priv pub, K.Marshal = Outcome.ok (priv, pub) ∧
      K.Verify lib R S hash pub = Outcome.ok true := by
  rcases h with h | h
  · exact SignCustomCache_Verify lib c K rand hash R S hc hsig hK h
  · exact SignCustomCache_Verify lib c K (rand.drop 64) hash R S hc hsig hK
      (Sign_SignCustomCache lib K rand R S hash h).2

theorem Sign_Verify_witness :
    P256.WellFormed ∧ modelLib.SignatureCorrect P256 ∧ aliceKey.Generated P256 ∧
    aliceKey.Sign modelLib sampleRand = Outcome.ok (sampleR, sampleS, sampleHash) ∧
    sampleHash.length = 64 ∧
    ∃ priv pub, aliceKey.Marshal = Outcome.ok (priv, pub) ∧
      aliceKey.Verify modelLib sampleR sampleS sampleHash pub = Outcome.ok true :=
  ⟨P256_wellFormed, modelLib_signatureCorrect_P256, aliceKey_generated, aliceKey_Sign,
    by decide,
    Sign_Verify modelLib P256 aliceKey sampleRand sampleHash sampleR sampleS P256_wellFormed
      modelLib_signatureCorrect_P256 aliceKey_generated (Or.inr aliceKey_Sign)⟩

end Ecdh
